import Mathlib

/-!
# A chess rules engine (`script.js`): embedding and verified properties

The script keeps one global 8x8 `board` of piece symbols, a `selected` square and a
`whiteToMove` flag.  The embedding below passes the board explicitly: a function that
writes to the global board returns the board it leaves behind, so that the
tentative-apply/restore of `isValidMove` is visible in the model.  A JavaScript call that
does not return a value (an exception, or a loop that does not stop) is `none`.
-/

namespace Chess

/-! ## Data model -/

/-- The thirteen values a board cell holds: the empty marker `''` and the twelve symbols. -/
inductive Piece
  | empty
  | wK | wQ | wR | wB | wN | wP
  | bK | bQ | bR | bB | bN | bP
  deriving DecidableEq, Repr

/-- The JavaScript string of a cell value. -/
def Piece.symbol : Piece → String
  | .empty => ""
  | .wK => "♔" | .wQ => "♕" | .wR => "♖" | .wB => "♗" | .wN => "♘" | .wP => "♙"
  | .bK => "♚" | .bQ => "♛" | .bR => "♜" | .bB => "♝" | .bN => "♞" | .bP => "♟"

/-- Substring search from every start position of the haystack (the end included, where
only the empty needle matches). -/
def includesFrom (needle : List Char) : List Char → Bool
  | [] => needle.isEmpty
  | c :: rest => needle.isPrefixOf (c :: rest) || includesFrom needle rest

/-- JavaScript `String.prototype.includes`: is `searchString` a substring of `s`.  Every symbol is a
single UTF-16 code unit, so code units and characters coincide here. -/
def includes (s searchString : String) : Bool :=
  includesFrom searchString.data s.data

/-- Function `isWhite(piece)`, script.js line 19. -/
def isWhite (piece : Piece) : Bool :=
  includes "♔♕♖♗♘♙" piece.symbol

/-- Function `isBlack(piece)`, script.js line 23. -/
def isBlack (piece : Piece) : Bool :=
  includes "♚♛♜♝♞♟" piece.symbol

/-- The global `board`: eight rows of eight cells. -/
abbrev Board := Fin 8 → Fin 8 → Piece

/-- The assignment `board[row][col] = piece`. -/
def Board.set (board : Board) (row col : Fin 8) (piece : Piece) : Board :=
  fun r c => if r = row ∧ c = col then piece else board r c

/-- The expression `board[r][c]` for arbitrary numbers: `none` when `board[r]` is
`undefined` (the access throws a TypeError), `some none` when the row exists and the
column does not (the value `undefined`), `some (some p)` on the board. -/
def Board.read (board : Board) (r c : Int) : Option (Option Piece) :=
  if 0 ≤ r ∧ r < 8 then
    if 0 ≤ c ∧ c < 8 then
      some (some (board (Fin.ofNat r.toNat) (Fin.ofNat c.toNat)))
    else some none
  else none

/-- A square `{ row, col }`. -/
structure Square where
  row : Fin 8
  col : Fin 8
  deriving DecidableEq, Repr, Fintype

/-- The squares in the order of the nested `for` loops (rows outside, columns inside). -/
def allSquares : List Square :=
  (List.finRange 8).flatMap fun row => (List.finRange 8).map fun col => ⟨row, col⟩

/-- The initial `board`, script.js lines 4-13. -/
def initialRows : List (List Piece) :=
  [ [.bR, .bN, .bB, .bQ, .bK, .bB, .bN, .bR],
    [.bP, .bP, .bP, .bP, .bP, .bP, .bP, .bP],
    [.empty, .empty, .empty, .empty, .empty, .empty, .empty, .empty],
    [.empty, .empty, .empty, .empty, .empty, .empty, .empty, .empty],
    [.empty, .empty, .empty, .empty, .empty, .empty, .empty, .empty],
    [.empty, .empty, .empty, .empty, .empty, .empty, .empty, .empty],
    [.wP, .wP, .wP, .wP, .wP, .wP, .wP, .wP],
    [.wR, .wN, .wB, .wQ, .wK, .wB, .wN, .wR] ]

/-- A board given by its rows (cells missing from the lists are empty). -/
def Board.ofRows (rows : List (List Piece)) : Board :=
  fun r c => (rows.getD r.val []).getD c.val Piece.empty

/-- The board at load time. -/
def initialBoard : Board := Board.ofRows initialRows

/-! ## Path checker -/

/-- The `while` loop of `isPathClear`, script.js lines 63-67, with `fuel` bounding the number
of times the loop condition is tested. -/
def pathLoop (board : Board) (rowStep colStep toRow toCol : Int) :
    Nat → Int → Int → Option Bool
  | 0, _, _ => none
  | fuel + 1, r, c =>
    if r ≠ toRow ∨ c ≠ toCol then
      match board.read r c with
      | none => none
      | some cell =>
        if cell ≠ some Piece.empty then some false
        else pathLoop board rowStep colStep toRow toCol fuel (r + rowStep) (c + colStep)
    else some true

/-- Function `isPathClear(fromRow, fromCol, toRow, toCol)`, script.js line 57.  Every iteration moves
`r` or `c` by one, or neither when both steps are zero and the loop is not entered, so the
loop condition is tested at most eight times before the walk ends or leaves the board. -/
def isPathClear (board : Board) (fromRow fromCol toRow toCol : Fin 8) : Option Bool :=
  let rowStep := Int.sign ((toRow : Int) - (fromRow : Int))
  let colStep := Int.sign ((toCol : Int) - (fromCol : Int))
  let r := (fromRow : Int) + rowStep
  let c := (fromCol : Int) + colStep
  pathLoop board rowStep colStep toRow toCol 8 r c

/-- The coordinates at which the loop of `isPathClear` evaluates `board[r][c]`, in order: the
same walk as `pathLoop`, recording each read. -/
def pathReads (board : Board) (rowStep colStep toRow toCol : Int) :
    Nat → Int → Int → List (Int × Int)
  | 0, _, _ => []
  | fuel + 1, r, c =>
    if r ≠ toRow ∨ c ≠ toCol then
      (r, c) ::
        match board.read r c with
        | none => []
        | some cell =>
          if cell ≠ some Piece.empty then []
          else pathReads board rowStep colStep toRow toCol fuel (r + rowStep) (c + colStep)
    else []

/-- The reads of a call `isPathClear(fromRow, fromCol, toRow, toCol)`. -/
def isPathClearReads (board : Board) (fromRow fromCol toRow toCol : Fin 8) :
    List (Int × Int) :=
  let rowStep := Int.sign ((toRow : Int) - (fromRow : Int))
  let colStep := Int.sign ((toCol : Int) - (fromCol : Int))
  let r := (fromRow : Int) + rowStep
  let c := (fromCol : Int) + colStep
  pathReads board rowStep colStep toRow toCol 8 r c

/-! ## Move legality -/

/-- Lines 73-109 of `isValidMove`: the two early `return false` and the value of `valid`
after the `switch`.  This is the whole of `isValidMove(…, true)`, the form in which
`isInCheck` calls it. -/
def basicLegality (board : Board) (fromRow fromCol toRow toCol : Fin 8) : Option Bool :=
  let piece := board fromRow fromCol
  let destPiece := board toRow toCol
  let rowDiff : Int := (toRow : Int) - (fromRow : Int)
  let colDiff : Int := (toCol : Int) - (fromCol : Int)
  if piece = Piece.empty then some false
  else if destPiece ≠ Piece.empty ∧
      ((isWhite piece ∧ isWhite destPiece) ∨ (isBlack piece ∧ isBlack destPiece)) then
    some false
  else
    match piece with
    | .wP =>
      if colDiff = 0 ∧ rowDiff = -1 ∧ destPiece = Piece.empty then some true
      else if colDiff = 0 ∧ rowDiff = -2 ∧ fromRow = 6 ∧ board 5 fromCol = Piece.empty ∧
          destPiece = Piece.empty then some true
      else if colDiff.natAbs = 1 ∧ rowDiff = -1 ∧ destPiece ≠ Piece.empty then some true
      else some false
    | .bP =>
      if colDiff = 0 ∧ rowDiff = 1 ∧ destPiece = Piece.empty then some true
      else if colDiff = 0 ∧ rowDiff = 2 ∧ fromRow = 1 ∧ board 2 fromCol = Piece.empty ∧
          destPiece = Piece.empty then some true
      else if colDiff.natAbs = 1 ∧ rowDiff = 1 ∧ destPiece ≠ Piece.empty then some true
      else some false
    | .wR | .bR =>
      if rowDiff = 0 ∨ colDiff = 0 then isPathClear board fromRow fromCol toRow toCol
      else some false
    | .wB | .bB =>
      if rowDiff.natAbs = colDiff.natAbs then isPathClear board fromRow fromCol toRow toCol
      else some false
    | .wQ | .bQ =>
      if rowDiff = 0 ∨ colDiff = 0 ∨ rowDiff.natAbs = colDiff.natAbs then
        isPathClear board fromRow fromCol toRow toCol
      else some false
    | .wN | .bN =>
      if (rowDiff.natAbs = 2 ∧ colDiff.natAbs = 1) ∨ (rowDiff.natAbs = 1 ∧ colDiff.natAbs = 2)
      then some true else some false
    | .wK | .bK =>
      if rowDiff.natAbs ≤ 1 ∧ colDiff.natAbs ≤ 1 then some true else some false
    | .empty => some false

/-- Function `findKing(isWhitePlayer)`, script.js line 28: the first king square in row-major order. -/
def findKing (board : Board) (isWhitePlayer : Bool) : Option Square :=
  let kingSymbol := if isWhitePlayer then Piece.wK else Piece.bK
  allSquares.find? fun s => board s.row s.col = kingSymbol

/-- A scan with early `return true`; it stops with no value when a test has none. -/
def anySquare (test : Square → Option Bool) : List Square → Option Bool
  | [] => some false
  | s :: rest =>
    match test s with
    | none => none
    | some true => some true
    | some false => anySquare test rest

/-- Function `isInCheck(isWhitePlayer)`, script.js line 39.  It only reads the board: its calls
`isValidMove(r, c, king.row, king.col, true)` are `basicLegality`. -/
def isInCheck (board : Board) (isWhitePlayer : Bool) : Option Bool :=
  match findKing board isWhitePlayer with
  | none => some false
  | some king =>
    anySquare (fun s =>
      let piece := board s.row s.col
      if piece = Piece.empty then some false
      else if (isWhitePlayer && isBlack piece) || (!isWhitePlayer && isWhite piece) then
        basicLegality board s.row s.col king.row king.col
      else some false) allSquares

/-- Function `isValidMove(fromRow, fromCol, toRow, toCol, skipCheck)`, script.js line 72: the result
and the board the call leaves behind. -/
def isValidMove (board : Board) (fromRow fromCol toRow toCol : Fin 8) (skipCheck : Bool) :
    Option (Bool × Board) :=
  match basicLegality board fromRow fromCol toRow toCol with
  | none => none
  | some valid =>
    if valid && !skipCheck then
      let tempFrom := board fromRow fromCol
      let tempTo := board toRow toCol
      let board1 := board.set toRow toCol tempFrom
      let board2 := board1.set fromRow fromCol Piece.empty
      match isInCheck board2 (isWhite tempFrom) with
      | none => none
      | some inCheck =>
        let board3 := board2.set fromRow fromCol tempFrom
        let board4 := board3.set toRow toCol tempTo
        if inCheck then some (false, board4) else some (valid, board4)
    else some (valid, board)

/-- A scan over squares by a test that may write to the board, with early `return true`. -/
def scanMoves (test : Square → Board → Option (Bool × Board)) :
    List Square → Board → Option (Bool × Board)
  | [], board => some (false, board)
  | s :: rest, board =>
    match test s board with
    | none => none
    | some (true, board1) => some (true, board1)
    | some (false, board1) => scanMoves test rest board1

/-- A full scan pushing every square whose test succeeds. -/
def collectMoves (test : Square → Board → Option (Bool × Board)) :
    List Square → Board → Option (List Square × Board)
  | [], board => some ([], board)
  | s :: rest, board =>
    match test s board with
    | none => none
    | some (ok, board1) =>
      match collectMoves test rest board1 with
      | none => none
      | some (moves, board2) => some (if ok then s :: moves else moves, board2)

/-- Function `getLegalMoves(row, col)`, script.js line 131. -/
def getLegalMoves (board : Board) (row col : Fin 8) : Option (List Square × Board) :=
  collectMoves (fun dst b => isValidMove b row col dst.row dst.col false) allSquares board

/-- Function `hasLegalMoves(isWhitePlayer)`, script.js line 170. -/
def hasLegalMoves (board : Board) (isWhitePlayer : Bool) : Option (Bool × Board) :=
  scanMoves (fun src b =>
    let piece := b src.row src.col
    if piece = Piece.empty then some (false, b)
    else if (isWhitePlayer && isWhite piece) || (!isWhitePlayer && isBlack piece) then
      scanMoves (fun dst b1 => isValidMove b1 src.row src.col dst.row dst.col false)
        allSquares b
    else some (false, b)) allSquares board

/-! ## The click handler -/

/-- The script's variables. -/
structure Game where
  board : Board
  selected : Option Square
  whiteToMove : Bool

/-- The state at load time, script.js lines 4-16. -/
def initialGame : Game := ⟨initialBoard, none, true⟩

/-- What `handleClick` writes to the message box. -/
inductive Message
  | blackWinsByCheckmate
  | whiteWinsByCheckmate
  | stalemate
  | check
  | blank
  deriving DecidableEq, Repr

/-- What `renderBoard()` does to the script's variables, script.js line 144: it queries
`getLegalMoves` for the selection; the squares found only go to the page. -/
def renderBoard (g : Game) : Option Game :=
  match g.selected with
  | none => some g
  | some sel =>
    match getLegalMoves g.board sel.row sel.col with
    | none => none
    | some (_, board1) => some { g with board := board1 }

/-- Function `handleClick(row, col)`, script.js line 190: the new state and the text written to the
message box (`none` when the box is left as it was). -/
def handleClick (g : Game) (row col : Fin 8) : Option (Game × Option Message) :=
  let piece := g.board row col
  match g.selected with
  | some selected =>
    match isValidMove g.board selected.row selected.col row col false with
    | none => none
    | some (true, board0) =>
      let board1 := board0.set row col (board0 selected.row selected.col)
      let board2 := board1.set selected.row selected.col Piece.empty
      let whiteToMove := !g.whiteToMove
      match isInCheck board2 whiteToMove with
      | none => none
      | some opponentInCheck =>
        match hasLegalMoves board2 whiteToMove with
        | none => none
        | some (opponentHasMoves, board3) =>
          let message :=
            if opponentInCheck && !opponentHasMoves then
              if whiteToMove then Message.blackWinsByCheckmate
              else Message.whiteWinsByCheckmate
            else if !opponentHasMoves then Message.stalemate
            else if opponentInCheck then Message.check
            else Message.blank
          (renderBoard ⟨board3, none, whiteToMove⟩).map fun g1 => (g1, some message)
    | some (false, board0) =>
      (renderBoard ⟨board0, none, g.whiteToMove⟩).map fun g1 => (g1, some Message.blank)
  | none =>
    if piece ≠ Piece.empty ∧
        ((g.whiteToMove ∧ isWhite piece) ∨ (!g.whiteToMove ∧ isBlack piece)) then
      (renderBoard ⟨g.board, some ⟨row, col⟩, g.whiteToMove⟩).map fun g1 =>
        (g1, some Message.blank)
    else (renderBoard g).map fun g1 => (g1, none)

/-- A sequence of clicks, each handled to the end before the next. -/
def clicks : Game → List Square → Option Game
  | g, [] => some g
  | g, s :: rest =>
    match handleClick g s.row s.col with
    | none => none
    | some (g1, _) => clicks g1 rest

/-! ## Reference notions, written from the specification -/

/-- A square lies strictly between two squares when it is on the segment that joins them
and is neither of them. -/
def StrictlyBetween (fromRow fromCol toRow toCol row col : Fin 8) : Prop :=
  ((row : Int) - fromRow) * ((toCol : Int) - fromCol) =
      ((col : Int) - fromCol) * ((toRow : Int) - fromRow) ∧
    ((fromRow ≤ row ∧ row ≤ toRow) ∨ (toRow ≤ row ∧ row ≤ fromRow)) ∧
    ((fromCol ≤ col ∧ col ≤ toCol) ∨ (toCol ≤ col ∧ col ≤ fromCol)) ∧
    ¬ (row = fromRow ∧ col = fromCol) ∧ ¬ (row = toRow ∧ col = toCol)

instance (fromRow fromCol toRow toCol row col : Fin 8) :
    Decidable (StrictlyBetween fromRow fromCol toRow toCol row col) := by
  unfold StrictlyBetween; infer_instance

/-- Every square strictly between the two squares is empty. -/
def PathEmpty (board : Board) (fromRow fromCol toRow toCol : Fin 8) : Prop :=
  ∀ row col : Fin 8, StrictlyBetween fromRow fromCol toRow toCol row col →
    board row col = Piece.empty

instance (board : Board) (fromRow fromCol toRow toCol : Fin 8) :
    Decidable (PathEmpty board fromRow fromCol toRow toCol) := by
  unfold PathEmpty; infer_instance

/-- The two squares share a rank, a file or a diagonal. -/
def OnLine (fromRow fromCol toRow toCol : Fin 8) : Prop :=
  fromRow = toRow ∨ fromCol = toCol ∨
    ((toRow : Int) - fromRow).natAbs = ((toCol : Int) - fromCol).natAbs

instance (fromRow fromCol toRow toCol : Fin 8) : Decidable (OnLine fromRow fromCol toRow toCol) := by
  unfold OnLine; infer_instance

/-- The side of a piece in the data model: `some true` for the six white symbols,
`some false` for the six black ones, `none` for the empty marker. -/
def Piece.side : Piece → Option Bool
  | .empty => none
  | .wK | .wQ | .wR | .wB | .wN | .wP => some true
  | .bK | .bQ | .bR | .bB | .bN | .bP => some false

/-- The six roles. -/
inductive Role
  | pawn | rook | bishop | queen | knight | king
  deriving DecidableEq, Repr, Fintype

/-- The role of a piece, `none` for the empty marker. -/
def Piece.role : Piece → Option Role
  | .empty => none
  | .wK | .bK => some .king
  | .wQ | .bQ => some .queen
  | .wR | .bR => some .rook
  | .wB | .bB => some .bishop
  | .wN | .bN => some .knight
  | .wP | .bP => some .pawn

/-- The movement pattern of a role and side, as the rule table gives it. -/
def RolePattern (board : Board) (fromRow fromCol toRow toCol : Fin 8) :
    Role → Bool → Prop
  | .pawn, true =>
    let dr : Int := (toRow : Int) - fromRow
    let dc : Int := (toCol : Int) - fromCol
    (dc = 0 ∧ dr = -1 ∧ board toRow toCol = Piece.empty) ∨
    (dc = 0 ∧ dr = -2 ∧ fromRow = 6 ∧ board 5 fromCol = Piece.empty ∧
      board toRow toCol = Piece.empty) ∨
    (dc.natAbs = 1 ∧ dr = -1 ∧ board toRow toCol ≠ Piece.empty)
  | .pawn, false =>
    let dr : Int := (toRow : Int) - fromRow
    let dc : Int := (toCol : Int) - fromCol
    (dc = 0 ∧ dr = 1 ∧ board toRow toCol = Piece.empty) ∨
    (dc = 0 ∧ dr = 2 ∧ fromRow = 1 ∧ board 2 fromCol = Piece.empty ∧
      board toRow toCol = Piece.empty) ∨
    (dc.natAbs = 1 ∧ dr = 1 ∧ board toRow toCol ≠ Piece.empty)
  | .rook, _ =>
    (fromRow = toRow ∨ fromCol = toCol) ∧ PathEmpty board fromRow fromCol toRow toCol
  | .bishop, _ =>
    ((toRow : Int) - fromRow).natAbs = ((toCol : Int) - fromCol).natAbs ∧
      PathEmpty board fromRow fromCol toRow toCol
  | .queen, _ =>
    ((fromRow = toRow ∨ fromCol = toCol) ∧ PathEmpty board fromRow fromCol toRow toCol) ∨
    (((toRow : Int) - fromRow).natAbs = ((toCol : Int) - fromCol).natAbs ∧
      PathEmpty board fromRow fromCol toRow toCol)
  | .knight, _ =>
    (((toRow : Int) - fromRow).natAbs = 1 ∧ ((toCol : Int) - fromCol).natAbs = 2) ∨
    (((toRow : Int) - fromRow).natAbs = 2 ∧ ((toCol : Int) - fromCol).natAbs = 1)
  | .king, _ =>
    ((toRow : Int) - fromRow).natAbs ≤ 1 ∧ ((toCol : Int) - fromCol).natAbs ≤ 1

instance (board : Board) (fromRow fromCol toRow toCol : Fin 8) (role : Role) (white : Bool) :
    Decidable (RolePattern board fromRow fromCol toRow toCol role white) := by
  cases role <;> cases white <;> unfold RolePattern <;> infer_instance

/-- The reference rule of the rule table: the source holds a piece, the destination is empty
or holds a piece of the other side, and the pattern of the piece's role is met. -/
def ReferenceRule (board : Board) (fromRow fromCol toRow toCol : Fin 8) : Prop :=
  ∃ role white, (board fromRow fromCol).role = some role ∧
    (board fromRow fromCol).side = some white ∧
    (board toRow toCol = Piece.empty ∨ (board toRow toCol).side = some (!white)) ∧
    RolePattern board fromRow fromCol toRow toCol role white

instance (board : Board) (fromRow fromCol toRow toCol : Fin 8) :
    Decidable (ReferenceRule board fromRow fromCol toRow toCol) := by
  unfold ReferenceRule; infer_instance

/-- The board obtained by moving the piece from the source to the destination and emptying
the source. -/
def Board.move (board : Board) (fromRow fromCol toRow toCol : Fin 8) : Board :=
  (board.set toRow toCol (board fromRow fromCol)).set fromRow fromCol Piece.empty

/-- A side is attacked when its king is on the board and a piece of the other side meets
the reference rule towards the king's square (the first one in row-major order). -/
def Attacked (board : Board) (white : Bool) : Prop :=
  ∃ king, findKing board white = some king ∧
    ∃ s : Square, (board s.row s.col).side = some (!white) ∧
      ReferenceRule board s.row s.col king.row king.col

instance (board : Board) (white : Bool) : Decidable (Attacked board white) := by
  unfold Attacked; infer_instance

/-- A move that meets the reference rule and, unless safety checking is skipped, leaves the
side of the moved piece unattacked. -/
def Legal (board : Board) (fromRow fromCol toRow toCol : Fin 8) (skipCheck : Bool) : Prop :=
  ReferenceRule board fromRow fromCol toRow toCol ∧
    (skipCheck = false →
      ¬ Attacked (board.move fromRow fromCol toRow toCol) (isWhite (board fromRow fromCol)))

instance (board : Board) (fromRow fromCol toRow toCol : Fin 8) (skipCheck : Bool) :
    Decidable (Legal board fromRow fromCol toRow toCol skipCheck) := by
  unfold Legal; infer_instance

/-- Some square owned by the side has a safety-checked legal move. -/
def HasLegalMove (board : Board) (white : Bool) : Prop :=
  ∃ src dst : Square, (board src.row src.col).side = some white ∧
    Legal board src.row src.col dst.row dst.col false

instance (board : Board) (white : Bool) : Decidable (HasLegalMove board white) := by
  unfold HasLegalMove; infer_instance

/-- A pin on the e-file: white king e1, white rook e2, black rook e8, black king a8. -/
def pinBoard : Board := Board.ofRows
  [ [.bK, .empty, .empty, .empty, .bR, .empty, .empty, .empty],
    [], [], [], [], [],
    [.empty, .empty, .empty, .empty, .wR, .empty, .empty, .empty],
    [.empty, .empty, .empty, .empty, .wK, .empty, .empty, .empty] ]

/-- The status of the rule book for the side to move after a commit: checkmate won by the
side that just moved when the side to move is in check and has no approved move, stalemate
when it is not in check and has none, `Check!` when it is in check and has one, and the empty
annotation otherwise.  `hasMove` says that some square owned by the side to move has a
destination that `isValidMove` with safety checking approves. -/
def StatusCorrect (board : Board) (sideToMove : Bool) (message : Message) : Prop :=
  let hasMove : Prop := ∃ src dst : Square, (board src.row src.col).side = some sideToMove ∧
    (isValidMove board src.row src.col dst.row dst.col false).map Prod.fst = some true
  (message = (if sideToMove then Message.blackWinsByCheckmate
      else Message.whiteWinsByCheckmate) ↔
    isInCheck board sideToMove = some true ∧ ¬ hasMove) ∧
  (message = Message.stalemate ↔ isInCheck board sideToMove = some false ∧ ¬ hasMove) ∧
  (message = Message.check ↔ isInCheck board sideToMove = some true ∧ hasMove) ∧
  (message = Message.blank ↔ isInCheck board sideToMove = some false ∧ hasMove)

/-- The fool's mate, move by move: after 1. f3. -/
def afterF3 : Game := ⟨initialBoard.move 6 5 5 5, none, false⟩

/-- After 1. f3 e5. -/
def afterE5 : Game := ⟨afterF3.board.move 1 4 3 4, none, true⟩

/-- After 1. f3 e5 2. g4. -/
def afterG4 : Game := ⟨afterE5.board.move 6 6 4 6, none, false⟩

/-- The black queen on d8 is selected. -/
def beforeMate : Game := ⟨afterG4.board, some ⟨0, 3⟩, false⟩

/-- After 2. ... Qh4. -/
def mated : Game := ⟨afterG4.board.move 0 3 4 7, none, true⟩

/-- White king a1, black king a3, black queen b3. -/
def stalemateBoard : Board := Board.ofRows
  [ [], [], [], [], [], [.bK, .bQ], [], [.wK] ]

/-- The black queen stands on b8 and is selected; black is to move. -/
def beforeStalemate : Game :=
  ⟨Board.ofRows [ [.empty, .bQ], [], [], [], [], [.bK], [], [.wK] ], some ⟨0, 1⟩, false⟩

/-- The states reachable from the state at load time by clicks on squares of the board. -/
inductive Reachable : Game → Prop
  | initial : Reachable initialGame
  | click {g g1 : Game} {message : Option Message} (row col : Fin 8) :
      Reachable g → handleClick g row col = some (g1, message) → Reachable g1

/-- The king symbol of a side. -/
def kingOf (white : Bool) : Piece := if white then Piece.wK else Piece.bK

/-- The position right after the stalemating move Qb8-b3. -/
def stalemated : Game := ⟨beforeStalemate.board.move 0 1 5 1, none, true⟩

/-- What every reachable state satisfies: one king a side, a selection that holds a piece of
the side to move, and the side that is not to move is not attacked. -/
structure GameInv (g : Game) : Prop where
  oneKing : ∀ white, ∃! s : Square, g.board s.row s.col = kingOf white
  selection : ∀ s, g.selected = some s → (g.board s.row s.col).side = some g.whiteToMove
  safe : ¬ Attacked g.board (!g.whiteToMove)

/-- Row-major order on squares: an earlier row, or the same row and an earlier column. -/
def Square.before (s t : Square) : Prop :=
  s.row < t.row ∨ (s.row = t.row ∧ s.col < t.col)

instance (s t : Square) : Decidable (s.before t) := by
  unfold Square.before; infer_instance

/-- The first square in row-major order that holds the king of the side. -/
def FirstKing (board : Board) (white : Bool) (k : Square) : Prop :=
  board k.row k.col = kingOf white ∧
    ∀ s : Square, s.before k → board s.row s.col ≠ kingOf white

instance (board : Board) (white : Bool) (k : Square) : Decidable (FirstKing board white k) := by
  unfold FirstKing; infer_instance

/-- The same role of the other side; the empty marker stays empty. -/
def Piece.swap : Piece → Piece
  | .empty => .empty
  | .wK => .bK | .wQ => .bQ | .wR => .bR | .wB => .bB | .wN => .bN | .wP => .bP
  | .bK => .wK | .bQ => .wQ | .bR => .wR | .bB => .wB | .bN => .wN | .bP => .wP

/-- Row `7 - r`. -/
def flipRow (r : Fin 8) : Fin 8 := ⟨7 - r.val, by omega⟩

/-- The board with the rows reversed and every piece replaced by the same role of the other
side. -/
def mirror (board : Board) : Board :=
  fun r c => (board (flipRow r) c).swap

/-- Each side has at most one king on the board. -/
def AtMostOneKing (board : Board) : Prop :=
  ∀ (white : Bool) (s t : Square),
    board s.row s.col = kingOf white → board t.row t.col = kingOf white → s = t

instance (board : Board) : Decidable (AtMostOneKing board) := by
  unfold AtMostOneKing; infer_instance

/-- Two white kings on a8 and a1 and a black rook on h1. -/
def twoKingsBoard : Board := Board.ofRows
  [ [.wK], [], [], [], [], [], [],
    [.wK, .empty, .empty, .empty, .empty, .empty, .empty, .bR] ]

/-! ## Piece classifier facts -/

theorem isWhite_iff (p : Piece) :
    isWhite p = true ↔
      p = .empty ∨ p = .wK ∨ p = .wQ ∨ p = .wR ∨ p = .wB ∨ p = .wN ∨ p = .wP := by
  cases p <;> decide

theorem isBlack_iff (p : Piece) :
    isBlack p = true ↔
      p = .empty ∨ p = .bK ∨ p = .bQ ∨ p = .bR ∨ p = .bB ∨ p = .bN ∨ p = .bP := by
  cases p <;> decide

theorem isBlack_eq_not_isWhite {p : Piece} (h : p ≠ .empty) : isBlack p = !isWhite p := by
  cases p <;> first | exact absurd rfl h | decide

/-! ## Board facts -/

theorem Board.read_coe (board : Board) (r c : Fin 8) :
    board.read (r : Int) (c : Int) = some (some (board r c)) := by
  have hr : (Fin.ofNat ((r : Int)).toNat : Fin 8) = r := by ext; simp [Fin.ofNat]
  have hc : (Fin.ofNat ((c : Int)).toNat : Fin 8) = c := by ext; simp [Fin.ofNat]
  have h1 : (0 : Int) ≤ (r : Int) ∧ (r : Int) < 8 := by omega
  have h2 : (0 : Int) ≤ (c : Int) ∧ (c : Int) < 8 := by omega
  simp only [Board.read, h1, h2, and_self, if_true, hr, hc]

theorem Board.set_same (board : Board) (row col : Fin 8) (p : Piece) :
    board.set row col p row col = p := by
  simp [Board.set]

theorem Board.set_other (board : Board) (row col r c : Fin 8) (p : Piece)
    (h : ¬ (r = row ∧ c = col)) : board.set row col p r c = board r c := by
  simp [Board.set, h]

/-- The four writes of the safety filter put the board back. -/
theorem Board.restore (board : Board) (fromRow fromCol toRow toCol : Fin 8) :
    (((board.set toRow toCol (board fromRow fromCol)).set fromRow fromCol Piece.empty).set
        fromRow fromCol (board fromRow fromCol)).set toRow toCol (board toRow toCol) = board := by
  funext r c
  simp only [Board.set]
  split_ifs with h1 h2
  · rw [h1.1, h1.2]
  · rw [h2.1, h2.2]
  · rfl

theorem mem_allSquares (s : Square) : s ∈ allSquares := by
  simp only [allSquares, List.mem_flatMap, List.mem_map, List.mem_finRange, true_and]
  exact ⟨s.row, s.col, rfl⟩

/-! ## The path walk -/

/-- The loop, `k` steps short of the target and with the `k` squares before the target on the
board, returns whether these squares are all empty. -/
theorem pathLoop_eq (board : Board) (rowStep colStep toRow toCol : Int)
    (hstep : rowStep ≠ 0 ∨ colStep ≠ 0) :
    ∀ (k fuel : Nat) (r c : Int), k < fuel →
      toRow = r + k * rowStep → toCol = c + k * colStep →
      (∀ i : Nat, i < k → ∃ p q : Fin 8, (p : Int) = r + i * rowStep ∧ (q : Int) = c + i * colStep) →
      pathLoop board rowStep colStep toRow toCol fuel r c =
        some (decide (∀ i : Nat, i < k → ∀ p q : Fin 8,
          (p : Int) = r + i * rowStep → (q : Int) = c + i * colStep → board p q = Piece.empty)) := by
  intro k
  induction k with
  | zero =>
    intro fuel r c hf hr hc _
    obtain ⟨fuel, rfl⟩ : ∃ n, fuel = n + 1 := ⟨fuel - 1, by omega⟩
    simp at hr hc
    simp [pathLoop, hr, hc]
  | succ k ih =>
    intro fuel r c hf hr hc hin
    obtain ⟨fuel, rfl⟩ : ∃ n, fuel = n + 1 := ⟨fuel - 1, by omega⟩
    have hne : r ≠ toRow ∨ c ≠ toCol := by
      push_cast at hr hc
      rcases hstep with h | h
      · left
        intro e
        have : ((k : Int) + 1) * rowStep = 0 := by rw [e] at hr; linarith
        rcases mul_eq_zero.mp this with h0 | h0
        · omega
        · exact h h0
      · right
        intro e
        have : ((k : Int) + 1) * colStep = 0 := by rw [e] at hc; linarith
        rcases mul_eq_zero.mp this with h0 | h0
        · omega
        · exact h h0
    obtain ⟨p0, q0, hp0, hq0⟩ := hin 0 (by omega)
    simp only [Nat.cast_zero, zero_mul, add_zero] at hp0 hq0
    have hread : board.read r c = some (some (board p0 q0)) := by
      rw [← hp0, ← hq0]; exact Board.read_coe board p0 q0
    rw [pathLoop, if_pos hne, hread]
    simp only
    by_cases he : board p0 q0 = Piece.empty
    · have ih1 := ih fuel (r + rowStep) (c + colStep) (by omega)
        (by rw [hr]; push_cast; ring) (by rw [hc]; push_cast; ring)
        (by
          intro i hi
          obtain ⟨p, q, hp, hq⟩ := hin (i + 1) (by omega)
          exact ⟨p, q, by rw [hp]; push_cast; ring, by rw [hq]; push_cast; ring⟩)
      rw [he, if_neg (by simp), ih1]
      congr 1
      apply decide_eq_decide.mpr
      constructor
      · intro h i hi p q hp hq
        cases i with
        | zero =>
          simp only [Nat.cast_zero, zero_mul, add_zero] at hp hq
          have e1 : p = p0 := by omega
          have e2 : q = q0 := by omega
          rw [e1, e2]; exact he
        | succ j =>
          exact h j (by omega) p q (by rw [hp]; push_cast; ring) (by rw [hq]; push_cast; ring)
      · intro h i hi p q hp hq
        exact h (i + 1) (by omega) p q (by rw [hp]; push_cast; ring) (by rw [hq]; push_cast; ring)
    · rw [if_pos (by simpa using he)]
      congr 1
      symm
      apply decide_eq_false
      intro h
      exact he (h 0 (by omega) p0 q0 (by simpa using hp0) (by simpa using hq0))

theorem strictlyBetween_iff_walk (fromRow fromCol toRow toCol p q : Fin 8) (sr sc : Int)
    (n : Nat) (hsr : sr = -1 ∨ sr = 0 ∨ sr = 1) (hsc : sc = -1 ∨ sc = 0 ∨ sc = 1)
    (hne : sr ≠ 0 ∨ sc ≠ 0) (hn : 1 ≤ n)
    (htr : (toRow : Int) = fromRow + n * sr) (htc : (toCol : Int) = fromCol + n * sc) :
    StrictlyBetween fromRow fromCol toRow toCol p q ↔
      ∃ i : Nat, i < n - 1 ∧ (p : Int) = fromRow + sr + i * sr ∧
        (q : Int) = fromCol + sc + i * sc := by
  have hn0 : (n : Int) ≠ 0 := by omega
  have hcol : ((p : Int) - fromRow) * ((toCol : Int) - fromCol) =
      ((q : Int) - fromCol) * ((toRow : Int) - fromRow) ↔
      ((p : Int) - fromRow) * sc = ((q : Int) - fromCol) * sr := by
    rw [htr, htc]
    constructor
    · intro h
      apply mul_left_cancel₀ hn0
      linear_combination h
    · intro h
      linear_combination (n : Int) * h
  unfold StrictlyBetween
  rw [hcol]
  simp only [Fin.le_def, Fin.ext_iff]
  rcases hsr with rfl | rfl | rfl <;> rcases hsc with rfl | rfl | rfl <;>
    first
    | (exfalso; rcases hne with h | h <;> exact h rfl)
    | (constructor
       · rintro ⟨h1, h2, h3, h4, h5⟩
         refine ⟨max ((p : Int) - fromRow).natAbs ((q : Int) - fromCol).natAbs - 1, ?_, ?_, ?_⟩ <;>
           omega
       · rintro ⟨i, hi, hp, hq⟩
         refine ⟨?_, ?_, ?_, ?_, ?_⟩ <;> omega)

theorem pathLoop_line (board : Board) (fromRow fromCol toRow toCol : Fin 8) (sr sc : Int)
    (n : Nat) (hsr : sr = -1 ∨ sr = 0 ∨ sr = 1) (hsc : sc = -1 ∨ sc = 0 ∨ sc = 1)
    (hne : sr ≠ 0 ∨ sc ≠ 0) (hn : 1 ≤ n)
    (htr : (toRow : Int) = fromRow + n * sr) (htc : (toCol : Int) = fromCol + n * sc) :
    pathLoop board sr sc toRow toCol 8 (fromRow + sr) (fromCol + sc) =
      some (decide (PathEmpty board fromRow fromCol toRow toCol)) := by
  have hn7 : n ≤ 7 := by
    rcases hne with h | h
    · rcases hsr with rfl | rfl | rfl <;> first | exact absurd rfl h | omega
    · rcases hsc with rfl | rfl | rfl <;> first | exact absurd rfl h | omega
  have hn1 : ((n - 1 : Nat) : Int) = (n : Int) - 1 := by omega
  have key := pathLoop_eq board sr sc toRow toCol hne (n - 1) 8 (fromRow + sr) (fromCol + sc)
    (by omega) (by rw [htr, hn1]; ring) (by rw [htc, hn1]; ring)
    (by
      intro i hi
      have hr : 0 ≤ (fromRow : Int) + sr + i * sr ∧ (fromRow : Int) + sr + i * sr < 8 := by
        rcases hsr with rfl | rfl | rfl <;> omega
      have hc : 0 ≤ (fromCol : Int) + sc + i * sc ∧ (fromCol : Int) + sc + i * sc < 8 := by
        rcases hsc with rfl | rfl | rfl <;> omega
      refine ⟨⟨((fromRow : Int) + sr + i * sr).toNat, by omega⟩,
        ⟨((fromCol : Int) + sc + i * sc).toNat, by omega⟩, ?_, ?_⟩
      · simp only [Int.toNat_of_nonneg hr.1]
      · simp only [Int.toNat_of_nonneg hc.1])
  rw [key]
  congr 1
  apply decide_eq_decide.mpr
  constructor
  · intro hh p q hb
    obtain ⟨i, hi, hp, hq⟩ :=
      (strictlyBetween_iff_walk fromRow fromCol toRow toCol p q sr sc n hsr hsc hne hn htr htc).mp hb
    exact hh i hi p q hp hq
  · intro hh i hi p q hp hq
    exact hh p q
      ((strictlyBetween_iff_walk fromRow fromCol toRow toCol p q sr sc n hsr hsc hne hn
        htr htc).mpr ⟨i, hi, hp, hq⟩)

theorem isPathClear_eq (board : Board) (fromRow fromCol toRow toCol : Fin 8)
    (h : OnLine fromRow fromCol toRow toCol) :
    isPathClear board fromRow fromCol toRow toCol =
      some (decide (PathEmpty board fromRow fromCol toRow toCol)) := by
  unfold OnLine at h
  simp only [Fin.ext_iff] at h
  unfold isPathClear
  simp only
  rcases lt_trichotomy ((toRow : Int) - fromRow) 0 with hr | hr | hr <;>
    rcases lt_trichotomy ((toCol : Int) - fromCol) 0 with hc | hc | hc
  all_goals
    first
    | rw [Int.sign_eq_neg_one_of_neg hr]
    | rw [Int.sign_eq_one_of_pos hr]
    | rw [hr, Int.sign_zero]
  all_goals
    first
    | rw [Int.sign_eq_neg_one_of_neg hc]
    | rw [Int.sign_eq_one_of_pos hc]
    | rw [hc, Int.sign_zero]
  case inr.inl.inr.inl =>
    have e1 : (toRow : Int) = fromRow := by omega
    have e2 : (toCol : Int) = fromCol := by omega
    have hpe : PathEmpty board fromRow fromCol toRow toCol := by
      intro p q hb
      unfold StrictlyBetween at hb
      simp only [Fin.le_def, Fin.ext_iff] at hb
      omega
    simp [pathLoop, e1, e2, hpe]
  all_goals
    exact pathLoop_line board fromRow fromCol toRow toCol _ _
      (max ((toRow : Int) - fromRow).natAbs ((toCol : Int) - fromCol).natAbs)
      (by decide) (by decide) (by decide) (by omega) (by omega) (by omega)

theorem side_eq_some_true (p : Piece) : p.side = some true ↔ (p ≠ .empty ∧ isWhite p = true) := by
  cases p <;> decide

theorem side_eq_some_false (p : Piece) : p.side = some false ↔ (p ≠ .empty ∧ isBlack p = true) := by
  cases p <;> decide

theorem side_eq_none (p : Piece) : p.side = none ↔ p = .empty := by
  cases p <;> decide

/-- The same-side guard of line 79, for a source that holds a piece. -/
theorem sameSide_guard (p d : Piece) (white : Bool) (hp : p.side = some white) :
    (d ≠ Piece.empty ∧ ((isWhite p = true ∧ isWhite d = true) ∨
        (isBlack p = true ∧ isBlack d = true))) ↔
      ¬ (d = Piece.empty ∨ d.side = some (!white)) := by
  cases white <;> cases p <;> first | exact absurd hp (by decide) | (cases d <;> decide)

theorem referenceRule_iff_pattern (board : Board) (fromRow fromCol toRow toCol : Fin 8)
    (role : Role) (white : Bool) (hr : (board fromRow fromCol).role = some role)
    (hw : (board fromRow fromCol).side = some white)
    (hd : board toRow toCol = Piece.empty ∨ (board toRow toCol).side = some (!white)) :
    ReferenceRule board fromRow fromCol toRow toCol ↔
      RolePattern board fromRow fromCol toRow toCol role white := by
  constructor
  · rintro ⟨role1, white1, h1, h2, -, h4⟩
    rw [hr] at h1
    rw [hw] at h2
    cases h1
    cases h2
    exact h4
  · intro h
    exact ⟨role, white, hr, hw, hd, h⟩

theorem ite_chain_eq (A B C : Prop) [Decidable A] [Decidable B] [Decidable C] :
    (if A then some true else if B then some true else if C then some true else some false) =
      some (decide (A ∨ B ∨ C)) := by
  split_ifs <;> simp [*]

theorem slide_eq (board : Board) (fromRow fromCol toRow toCol : Fin 8) (G S : Prop)
    [Decidable G] [Decidable S]
    (hG : G → OnLine fromRow fromCol toRow toCol)
    (hS : S ↔ G ∧ PathEmpty board fromRow fromCol toRow toCol) :
    (if G then isPathClear board fromRow fromCol toRow toCol else some false) =
      some (decide S) := by
  by_cases h : G
  · rw [if_pos h, isPathClear_eq board _ _ _ _ (hG h)]
    congr 1
    apply decide_eq_decide.mpr
    rw [hS]
    exact ⟨fun hp => ⟨h, hp⟩, fun hp => hp.2⟩
  · rw [if_neg h]
    congr 1
    symm
    apply decide_eq_false
    rw [hS]
    exact fun hp => h hp.1

theorem basicLegality_eq (board : Board) (fromRow fromCol toRow toCol : Fin 8) :
    basicLegality board fromRow fromCol toRow toCol =
      some (decide (ReferenceRule board fromRow fromCol toRow toCol)) := by
  unfold basicLegality
  simp only []
  by_cases hp : board fromRow fromCol = Piece.empty
  · rw [if_pos hp]
    congr 1
    symm
    apply decide_eq_false
    rintro ⟨role, white, hr, -⟩
    rw [hp] at hr
    cases hr
  · rw [if_neg hp]
    obtain ⟨white, hw⟩ : ∃ w, (board fromRow fromCol).side = some w := by
      cases h : (board fromRow fromCol).side with
      | none => exact absurd ((side_eq_none _).mp h) hp
      | some w => exact ⟨w, rfl⟩
    obtain ⟨role, hr⟩ : ∃ r, (board fromRow fromCol).role = some r := by
      cases h : board fromRow fromCol <;> first | exact absurd h hp | exact ⟨_, rfl⟩
    by_cases hg : board toRow toCol ≠ Piece.empty ∧
        ((isWhite (board fromRow fromCol) = true ∧ isWhite (board toRow toCol) = true) ∨
          (isBlack (board fromRow fromCol) = true ∧ isBlack (board toRow toCol) = true))
    · rw [if_pos hg]
      congr 1
      symm
      apply decide_eq_false
      rintro ⟨role1, white1, -, h2, h3, -⟩
      rw [hw] at h2
      cases h2
      exact (sameSide_guard _ _ white hw).mp hg h3
    · rw [if_neg hg]
      have hd := not_not.mp ((sameSide_guard _ _ white hw).not.mp hg)
      have hdec : decide (ReferenceRule board fromRow fromCol toRow toCol) =
          decide (RolePattern board fromRow fromCol toRow toCol role white) :=
        decide_eq_decide.mpr
          (referenceRule_iff_pattern board fromRow fromCol toRow toCol role white hr hw hd)
      rw [hdec]
      have hfr : ∀ a b : Fin 8, ((b : Int) - (a : Int) = 0) ↔ a = b := by
        intro a b; omega
      clear hdec hg
      revert hr hw hp
      generalize board fromRow fromCol = piece
      intro _ hw hr
      cases piece <;> cases hr <;> cases hw <;> simp only [RolePattern]
      · split_ifs with h <;> simp only [Option.some.injEq] <;> symm <;>
          first | (apply decide_eq_true; exact h) | (apply decide_eq_false; exact h)
      · exact slide_eq board _ _ _ _ _ _ (fun h => by unfold OnLine; omega)
          (by rw [hfr, hfr]; tauto)
      · exact slide_eq board _ _ _ _ _ _ (fun h => by unfold OnLine; omega) (by rw [hfr, hfr])
      · exact slide_eq board _ _ _ _ _ _ (fun h => by unfold OnLine; omega) Iff.rfl
      · split_ifs with h <;> simp only [Option.some.injEq] <;> symm <;>
          first | (apply decide_eq_true; omega) | (apply decide_eq_false; omega)
      · exact ite_chain_eq _ _ _
      · split_ifs with h <;> simp only [Option.some.injEq] <;> symm <;>
          first | (apply decide_eq_true; exact h) | (apply decide_eq_false; exact h)
      · exact slide_eq board _ _ _ _ _ _ (fun h => by unfold OnLine; omega)
          (by rw [hfr, hfr]; tauto)
      · exact slide_eq board _ _ _ _ _ _ (fun h => by unfold OnLine; omega) (by rw [hfr, hfr])
      · exact slide_eq board _ _ _ _ _ _ (fun h => by unfold OnLine; omega) Iff.rfl
      · split_ifs with h <;> simp only [Option.some.injEq] <;> symm <;>
          first | (apply decide_eq_true; omega) | (apply decide_eq_false; omega)
      · exact ite_chain_eq _ _ _

/-! ## Check detection and the safety filter -/

theorem anySquare_eq (test : Square → Option Bool) (P : Square → Prop) [DecidablePred P]
    (h : ∀ s, test s = some (decide (P s))) (l : List Square) :
    anySquare test l = some (decide (∃ s, s ∈ l ∧ P s)) := by
  induction l with
  | nil => simp [anySquare]
  | cons a rest ih =>
    rw [anySquare, h a]
    by_cases ha : P a
    · simp [ha]
    · simp [ha, ih]

theorem isInCheck_eq (board : Board) (white : Bool) :
    isInCheck board white = some (decide (Attacked board white)) := by
  unfold isInCheck
  cases hk : findKing board white with
  | none =>
    simp only [Option.some.injEq]
    symm
    apply decide_eq_false
    rintro ⟨king, h, -⟩
    rw [hk] at h
    cases h
  | some king =>
    simp only
    rw [anySquare_eq _
      (fun s => (board s.row s.col).side = some (!white) ∧
        ReferenceRule board s.row s.col king.row king.col)]
    · congr 1
      apply decide_eq_decide.mpr
      constructor
      · rintro ⟨s, -, hs⟩
        exact ⟨king, hk, s, hs⟩
      · rintro ⟨king1, h1, s, hs⟩
        rw [hk] at h1
        cases h1
        exact ⟨s, mem_allSquares s, hs⟩
    · intro s
      rw [basicLegality_eq]
      generalize board s.row s.col = piece
      cases white <;> cases piece <;> simp [isWhite_iff, isBlack_iff, Piece.side]

theorem isValidMove_eq (board : Board) (fromRow fromCol toRow toCol : Fin 8)
    (skipCheck : Bool) :
    isValidMove board fromRow fromCol toRow toCol skipCheck =
      some (decide (Legal board fromRow fromCol toRow toCol skipCheck), board) := by
  unfold isValidMove Legal
  rw [basicLegality_eq]
  simp only
  by_cases hv : ReferenceRule board fromRow fromCol toRow toCol
  · cases skipCheck with
    | true => simp [hv]
    | false =>
      have hb : (decide (ReferenceRule board fromRow fromCol toRow toCol) && !false) = true := by
        simp [hv]
      rw [if_pos hb, isInCheck_eq, Board.restore]
      simp only [Board.move, hv, decide_True, true_and, forall_const]
      by_cases ha : Attacked ((board.set toRow toCol (board fromRow fromCol)).set fromRow fromCol
          Piece.empty) (isWhite (board fromRow fromCol))
      · simp [ha]
      · simp [ha]
  · simp [hv]

theorem scanMoves_eq (test : Square → Board → Option (Bool × Board)) (board : Board)
    (P : Square → Prop) [DecidablePred P]
    (h : ∀ s, test s board = some (decide (P s), board)) (l : List Square) :
    scanMoves test l board = some (decide (∃ s, s ∈ l ∧ P s), board) := by
  induction l with
  | nil => simp [scanMoves]
  | cons a rest ih =>
    rw [scanMoves, h a]
    by_cases ha : P a
    · simp [ha]
    · simp [ha, ih]

theorem collectMoves_eq (test : Square → Board → Option (Bool × Board)) (board : Board)
    (P : Square → Prop) [DecidablePred P]
    (h : ∀ s, test s board = some (decide (P s), board)) (l : List Square) :
    collectMoves test l board = some (l.filter fun s => decide (P s), board) := by
  induction l with
  | nil => simp [collectMoves]
  | cons a rest ih =>
    rw [collectMoves, h a]
    simp only [ih]
    by_cases ha : P a
    · simp [ha]
    · simp [ha]

theorem getLegalMoves_eq (board : Board) (row col : Fin 8) :
    getLegalMoves board row col =
      some (allSquares.filter fun dst => decide (Legal board row col dst.row dst.col false),
        board) := by
  unfold getLegalMoves
  exact collectMoves_eq _ board (fun dst => Legal board row col dst.row dst.col false)
    (fun dst => isValidMove_eq board row col dst.row dst.col false) allSquares

theorem legal_source (board : Board) (fromRow fromCol toRow toCol : Fin 8) (skipCheck : Bool)
    (h : Legal board fromRow fromCol toRow toCol skipCheck) :
    ∃ white, (board fromRow fromCol).side = some white := by
  obtain ⟨⟨_, white, _, hw, _⟩, _⟩ := h
  exact ⟨white, hw⟩

theorem hasLegalMoves_eq (board : Board) (white : Bool) :
    hasLegalMoves board white = some (decide (HasLegalMove board white), board) := by
  unfold hasLegalMoves
  rw [scanMoves_eq _ board (fun src => (board src.row src.col).side = some white ∧
    ∃ dst : Square, Legal board src.row src.col dst.row dst.col false)]
  · congr 2
    apply decide_eq_decide.mpr
    constructor
    · rintro ⟨src, -, hs, dst, hl⟩
      exact ⟨src, dst, hs, hl⟩
    · rintro ⟨src, dst, hs, hl⟩
      exact ⟨src, mem_allSquares src, hs, dst, hl⟩
  · intro src
    simp only
    by_cases he : board src.row src.col = Piece.empty
    · rw [if_pos he]
      congr 2
      symm
      apply decide_eq_false
      rintro ⟨hs, -⟩
      rw [he] at hs
      cases hs
    · rw [if_neg he]
      by_cases ho : ((white && isWhite (board src.row src.col)) ||
          (!white && isBlack (board src.row src.col))) = true
      · rw [if_pos ho, scanMoves_eq _ board
          (fun dst => Legal board src.row src.col dst.row dst.col false)
          (fun dst => isValidMove_eq board src.row src.col dst.row dst.col false)]
        congr 2
        apply decide_eq_decide.mpr
        have hside : (board src.row src.col).side = some white := by
          revert he ho
          generalize board src.row src.col = piece
          cases white <;> cases piece <;> simp [isWhite_iff, isBlack_iff, Piece.side]
        constructor
        · rintro ⟨dst, -, hl⟩
          exact ⟨hside, dst, hl⟩
        · rintro ⟨-, dst, hl⟩
          exact ⟨dst, mem_allSquares dst, hl⟩
      · rw [if_neg ho]
        congr 2
        symm
        apply decide_eq_false
        rintro ⟨hs, -⟩
        revert he ho hs
        generalize board src.row src.col = piece
        cases white <;> cases piece <;> simp [isWhite_iff, isBlack_iff, Piece.side]

theorem renderBoard_eq (g : Game) : renderBoard g = some g := by
  obtain ⟨board, selected, whiteToMove⟩ := g
  cases selected <;> simp [renderBoard, getLegalMoves_eq]

/-! ## The click handler, case by case -/

theorem legal_iff_isValidMove (board : Board) (fromRow fromCol toRow toCol : Fin 8)
    (skipCheck : Bool) :
    (isValidMove board fromRow fromCol toRow toCol skipCheck).map Prod.fst = some true ↔
      Legal board fromRow fromCol toRow toCol skipCheck := by
  rw [isValidMove_eq]
  simp

theorem handleClick_commit (g : Game) (sel : Square) (row col : Fin 8)
    (hsel : g.selected = some sel) (hl : Legal g.board sel.row sel.col row col false) :
    handleClick g row col =
      some (⟨g.board.move sel.row sel.col row col, none, !g.whiteToMove⟩,
        some (
          if decide (Attacked (g.board.move sel.row sel.col row col) (!g.whiteToMove)) &&
              !decide (HasLegalMove (g.board.move sel.row sel.col row col) (!g.whiteToMove)) then
            if (!g.whiteToMove) = true then Message.blackWinsByCheckmate
            else Message.whiteWinsByCheckmate
          else if !decide (HasLegalMove (g.board.move sel.row sel.col row col) (!g.whiteToMove))
            then Message.stalemate
          else if decide (Attacked (g.board.move sel.row sel.col row col) (!g.whiteToMove)) then
            Message.check
          else Message.blank)) := by
  unfold handleClick
  simp only [hsel, isValidMove_eq, hl, decide_True, isInCheck_eq, hasLegalMoves_eq,
    renderBoard_eq, Option.map_some', Board.move]

theorem handleClick_reject (g : Game) (sel : Square) (row col : Fin 8)
    (hsel : g.selected = some sel) (hl : ¬ Legal g.board sel.row sel.col row col false) :
    handleClick g row col = some (⟨g.board, none, g.whiteToMove⟩, some Message.blank) := by
  unfold handleClick
  simp only [hsel, isValidMove_eq, hl, decide_False, renderBoard_eq, Option.map_some']

theorem handleClick_select (g : Game) (row col : Fin 8) (hsel : g.selected = none)
    (hown : (g.board row col).side = some g.whiteToMove) :
    handleClick g row col =
      some (⟨g.board, some ⟨row, col⟩, g.whiteToMove⟩, some Message.blank) := by
  unfold handleClick
  have hc : g.board row col ≠ Piece.empty ∧
      ((g.whiteToMove = true ∧ isWhite (g.board row col) = true) ∨
        ((!g.whiteToMove) = true ∧ isBlack (g.board row col) = true)) := by
    revert hown
    generalize g.board row col = piece
    cases g.whiteToMove <;> cases piece <;> simp [isWhite_iff, isBlack_iff, Piece.side]
  simp only [hsel, if_pos hc, renderBoard_eq, Option.map_some']

theorem handleClick_ignore (g : Game) (row col : Fin 8) (hsel : g.selected = none)
    (hown : (g.board row col).side ≠ some g.whiteToMove) :
    handleClick g row col = some (g, none) := by
  unfold handleClick
  have hc : ¬ (g.board row col ≠ Piece.empty ∧
      ((g.whiteToMove = true ∧ isWhite (g.board row col) = true) ∨
        ((!g.whiteToMove) = true ∧ isBlack (g.board row col) = true))) := by
    revert hown
    generalize g.board row col = piece
    cases g.whiteToMove <;> cases piece <;> simp [isWhite_iff, isBlack_iff, Piece.side]
  simp only [hsel, if_neg hc, renderBoard_eq, Option.map_some']

/-! ## The safety filter and the rule table -/

/-- C1: a move approved by `isValidMove` with safety checking enabled leaves the side of the
moved piece out of check on the board where the piece has moved and the source is empty. -/
theorem isValidMove_never_leaves_king_attacked (board : Board)
    (fromRow fromCol toRow toCol : Fin 8)
    (h : (isValidMove board fromRow fromCol toRow toCol false).map Prod.fst = some true) :
    isInCheck ((board.set toRow toCol (board fromRow fromCol)).set fromRow fromCol Piece.empty)
      (isWhite (board fromRow fromCol)) = some false := by
  have hl := (legal_iff_isValidMove board fromRow fromCol toRow toCol false).mp h
  have ha := hl.2 rfl
  rw [isInCheck_eq]
  simp only [Board.move] at ha
  simp [ha]

/-- C1 at the pinned rook of `pinBoard`, moving along the pin line from e2 to e5. -/
theorem isValidMove_never_leaves_king_attacked_witness :
    (isValidMove pinBoard 6 4 3 4 false).map Prod.fst = some true ∧
      isInCheck ((pinBoard.set 3 4 (pinBoard 6 4)).set 6 4 Piece.empty)
        (isWhite (pinBoard 6 4)) = some false :=
  ⟨by decide, isValidMove_never_leaves_king_attacked pinBoard 6 4 3 4 (by decide)⟩

/-- The pinned rook of `pinBoard` is not approved to leave the e-file, although the rook
pattern allows each of these moves. -/
theorem pinned_rook_stays_on_file :
    ∀ col : Fin 8, col ≠ 4 →
      (isValidMove pinBoard 6 4 6 col true).map Prod.fst = some true ∧
      (isValidMove pinBoard 6 4 6 col false).map Prod.fst = some false := by
  decide

/-- C2: with safety checking skipped, `isValidMove` returns true exactly when the reference rule
of the rule table holds, and it always returns. -/
theorem isValidMove_skip_eq_referenceRule (board : Board)
    (fromRow fromCol toRow toCol : Fin 8) :
    (isValidMove board fromRow fromCol toRow toCol true).map Prod.fst =
      some (decide (ReferenceRule board fromRow fromCol toRow toCol)) := by
  rw [isValidMove_eq]
  simp [Legal]

/-- C4: `isValidMove`, `getLegalMoves` and `hasLegalMoves` return and leave every square of
the board as it was, and a second `getLegalMoves` right after the first returns the same
list. -/
theorem queries_leave_board_unchanged (board : Board) (fromRow fromCol toRow toCol : Fin 8)
    (skipCheck : Bool) (row col : Fin 8) (isWhitePlayer : Bool) :
    (∃ result board1, isValidMove board fromRow fromCol toRow toCol skipCheck =
        some (result, board1) ∧ ∀ r c, board1 r c = board r c) ∧
    (∃ moves board1, getLegalMoves board row col = some (moves, board1) ∧
        (∀ r c, board1 r c = board r c) ∧
        ∃ board2, getLegalMoves board1 row col = some (moves, board2) ∧
          ∀ r c, board2 r c = board r c) ∧
    (∃ result board1, hasLegalMoves board isWhitePlayer = some (result, board1) ∧
        ∀ r c, board1 r c = board r c) := by
  refine ⟨⟨_, board, isValidMove_eq board fromRow fromCol toRow toCol skipCheck, fun _ _ => rfl⟩,
    ⟨_, board, getLegalMoves_eq board row col, fun _ _ => rfl, board,
      getLegalMoves_eq board row col, fun _ _ => rfl⟩,
    ⟨_, board, hasLegalMoves_eq board isWhitePlayer, fun _ _ => rfl⟩⟩

/-! ## Effect of a click -/

theorem hasLegalMove_iff (board : Board) (white : Bool) :
    HasLegalMove board white ↔
      ∃ src dst : Square, (board src.row src.col).side = some white ∧
        (isValidMove board src.row src.col dst.row dst.col false).map Prod.fst = some true := by
  unfold HasLegalMove
  simp only [legal_iff_isValidMove]

theorem legal_ne (board : Board) (fromRow fromCol toRow toCol : Fin 8) (skipCheck : Bool)
    (h : Legal board fromRow fromCol toRow toCol skipCheck) :
    ¬ (toRow = fromRow ∧ toCol = fromCol) := by
  rintro ⟨rfl, rfl⟩
  obtain ⟨⟨role, white, -, hw, hd, -⟩, -⟩ := h
  rcases hd with hd | hd
  · rw [hd] at hw
    cases hw
  · rw [hw] at hd
    cases white <;> cases hd

/-- C9: a committed move puts the selected piece on the clicked square, empties the selected
square, leaves every other square alone, flips the turn once and clears the selection. -/
theorem handleClick_commit_effect (g : Game) (sel : Square) (row col : Fin 8)
    (hsel : g.selected = some sel)
    (hvalid : (isValidMove g.board sel.row sel.col row col false).map Prod.fst = some true) :
    ∃ g1 message, handleClick g row col = some (g1, message) ∧
      g1.board row col = g.board sel.row sel.col ∧
      g1.board sel.row sel.col = Piece.empty ∧
      (∀ r c, ¬ (r = row ∧ c = col) → ¬ (r = sel.row ∧ c = sel.col) →
        g1.board r c = g.board r c) ∧
      g1.whiteToMove = (!g.whiteToMove) ∧
      g1.selected = none := by
  have hl := (legal_iff_isValidMove _ _ _ _ _ _).mp hvalid
  have hne := legal_ne _ _ _ _ _ _ hl
  refine ⟨_, _, handleClick_commit g sel row col hsel hl, ?_, ?_, ?_, rfl, rfl⟩
  · show (g.board.move sel.row sel.col row col) row col = g.board sel.row sel.col
    unfold Board.move
    rw [Board.set_other _ _ _ _ _ _ hne, Board.set_same]
  · show (g.board.move sel.row sel.col row col) sel.row sel.col = Piece.empty
    unfold Board.move
    rw [Board.set_same]
  · intro r c h1 h2
    show (g.board.move sel.row sel.col row col) r c = g.board r c
    unfold Board.move
    rw [Board.set_other _ _ _ _ _ _ h2, Board.set_other _ _ _ _ _ _ h1]

/-- C10: a click that commits no move leaves the board and the turn as they were: a rejected
move clears the selection, and a click without selection selects the clicked square exactly
when it holds a piece of the side to move. -/
theorem handleClick_no_commit (g : Game) (row col : Fin 8) :
    (∀ sel, g.selected = some sel →
      (isValidMove g.board sel.row sel.col row col false).map Prod.fst = some false →
      ∃ message, handleClick g row col = some (⟨g.board, none, g.whiteToMove⟩, message)) ∧
    (g.selected = none →
      ∃ message, handleClick g row col =
        some (⟨g.board,
          if (g.board row col).side = some g.whiteToMove then some ⟨row, col⟩ else none,
          g.whiteToMove⟩, message)) := by
  constructor
  · intro sel hsel hrej
    have hl : ¬ Legal g.board sel.row sel.col row col false := by
      intro h
      rw [(legal_iff_isValidMove _ _ _ _ _ _).mpr h] at hrej
      cases hrej
    exact ⟨_, handleClick_reject g sel row col hsel hl⟩
  · intro hsel
    by_cases hown : (g.board row col).side = some g.whiteToMove
    · rw [if_pos hown]
      exact ⟨_, handleClick_select g row col hsel hown⟩
    · rw [if_neg hown]
      refine ⟨none, ?_⟩
      rw [handleClick_ignore g row col hsel hown]
      obtain ⟨board, selected, whiteToMove⟩ := g
      cases hsel
      rfl

theorem handleClick_commit_message (g : Game) (sel : Square) (row col : Fin 8)
    (inCheck hasMoves : Bool) (hsel : g.selected = some sel)
    (hvalid : (isValidMove g.board sel.row sel.col row col false).map Prod.fst = some true)
    (hc : isInCheck (g.board.move sel.row sel.col row col) (!g.whiteToMove) = some inCheck)
    (hm : (hasLegalMoves (g.board.move sel.row sel.col row col) (!g.whiteToMove)).map Prod.fst =
      some hasMoves) :
    handleClick g row col =
      some (⟨g.board.move sel.row sel.col row col, none, !g.whiteToMove⟩,
        some (
          if inCheck && !hasMoves then
            if (!g.whiteToMove) = true then Message.blackWinsByCheckmate
            else Message.whiteWinsByCheckmate
          else if !hasMoves then Message.stalemate
          else if inCheck then Message.check
          else Message.blank)) := by
  rw [handleClick_commit g sel row col hsel ((legal_iff_isValidMove _ _ _ _ _ _).mp hvalid)]
  rw [isInCheck_eq] at hc
  rw [hasLegalMoves_eq] at hm
  simp only [Option.map_some', Option.some.injEq] at hc hm
  rw [hc, hm]

theorem clicks_move (g : Game) (src dst : Square) (hsel : g.selected = none)
    (hown : (g.board src.row src.col).side = some g.whiteToMove)
    (hvalid : (isValidMove g.board src.row src.col dst.row dst.col false).map Prod.fst =
      some true) :
    clicks g [src, dst] =
      some ⟨g.board.move src.row src.col dst.row dst.col, none, !g.whiteToMove⟩ := by
  have h1 := handleClick_select g src.row src.col hsel hown
  have h2 := handleClick_commit ⟨g.board, some ⟨src.row, src.col⟩, g.whiteToMove⟩ ⟨src.row, src.col⟩
    dst.row dst.col rfl ((legal_iff_isValidMove _ _ _ _ _ _).mp hvalid)
  simp only [clicks, h1, h2]

/-! ## Two games -/

/-- C5: the four moves of the fool's mate are each committed by `handleClick`, after which
white is in check and has no approved move, and the message is black's win by checkmate. -/
theorem fools_mate :
    clicks initialGame [⟨6, 5⟩, ⟨5, 5⟩] = some afterF3 ∧
    clicks afterF3 [⟨1, 4⟩, ⟨3, 4⟩] = some afterE5 ∧
    clicks afterE5 [⟨6, 6⟩, ⟨4, 6⟩] = some afterG4 ∧
    clicks afterG4 [⟨0, 3⟩] = some beforeMate ∧
    handleClick beforeMate 4 7 = some (mated, some Message.blackWinsByCheckmate) ∧
    isInCheck mated.board true = some true ∧
    (hasLegalMoves mated.board true).map Prod.fst = some false := by
  refine ⟨?_, ?_, ?_, ?_, ?_, ?_, ?_⟩
  · exact clicks_move initialGame ⟨6, 5⟩ ⟨5, 5⟩ rfl (by decide) (by decide!)
  · exact clicks_move afterF3 ⟨1, 4⟩ ⟨3, 4⟩ rfl (by decide) (by decide!)
  · exact clicks_move afterE5 ⟨6, 6⟩ ⟨4, 6⟩ rfl (by decide) (by decide!)
  · have h := handleClick_select afterG4 0 3 rfl (by decide)
    simp only [clicks, h]
    rfl
  · exact handleClick_commit_message beforeMate ⟨0, 3⟩ 4 7 true false rfl (by decide!)
      (by decide!) (by decide!)
  · decide!
  · decide!

/-- C6: with white king a1, black king a3 and black queen b3, white is not in check and has
no approved move; the move Qb8-b3 that reaches the position is answered by the stalemate
message. -/
theorem stalemate_position :
    isInCheck stalemateBoard true = some false ∧
    (hasLegalMoves stalemateBoard true).map Prod.fst = some false ∧
    ∃ g1, handleClick beforeStalemate 5 1 = some (g1, some Message.stalemate) ∧
      g1.board = stalemateBoard ∧ g1.whiteToMove = true := by
  refine ⟨by decide!, by decide!, _, handleClick_commit_message beforeStalemate ⟨0, 1⟩ 5 1
    false false rfl (by decide!) (by decide!) (by decide!), by decide!, rfl⟩

/-- C9 at the first move 1. e4 of a game, the e-pawn being selected. -/
theorem handleClick_commit_effect_witness :
    (⟨initialBoard, some ⟨6, 4⟩, true⟩ : Game).selected = some ⟨6, 4⟩ ∧
    (isValidMove initialBoard 6 4 4 4 false).map Prod.fst = some true ∧
    ∃ g1 message, handleClick ⟨initialBoard, some ⟨6, 4⟩, true⟩ 4 4 = some (g1, message) ∧
      g1.board 4 4 = initialBoard 6 4 ∧
      g1.board 6 4 = Piece.empty ∧
      (∀ r c, ¬ (r = 4 ∧ c = 4) → ¬ (r = 6 ∧ c = 4) → g1.board r c = initialBoard r c) ∧
      g1.whiteToMove = (!true) ∧
      g1.selected = none :=
  ⟨rfl, by decide!,
    handleClick_commit_effect ⟨initialBoard, some ⟨6, 4⟩, true⟩ ⟨6, 4⟩ 4 4 rfl (by decide!)⟩

/-- C10 at the rejected move e2-e5 and at the click that selects the e-pawn. -/
theorem handleClick_no_commit_witness :
    (∃ message, handleClick ⟨initialBoard, some ⟨6, 4⟩, true⟩ 3 4 =
      some (⟨initialBoard, none, true⟩, message)) ∧
    (∃ message, handleClick initialGame 6 4 =
      some (⟨initialBoard,
        if (initialBoard 6 4).side = some true then some ⟨6, 4⟩ else none, true⟩, message)) :=
  ⟨(handleClick_no_commit ⟨initialBoard, some ⟨6, 4⟩, true⟩ 3 4).1 ⟨6, 4⟩ rfl (by decide!),
    (handleClick_no_commit initialGame 6 4).2 rfl⟩

/-! ## Invariants of play -/

theorem kingOf_side (white : Bool) : (kingOf white).side = some white := by
  cases white <;> rfl

theorem findKing_eq_some (board : Board) (white : Bool) (s : Square)
    (hs : board s.row s.col = kingOf white)
    (huniq : ∀ t : Square, board t.row t.col = kingOf white → t = s) :
    findKing board white = some s := by
  unfold findKing
  have hk : (if white = true then Piece.wK else Piece.bK) = kingOf white := rfl
  simp only [hk]
  cases hf : allSquares.find? (fun t => decide (board t.row t.col = kingOf white)) with
  | none =>
    rw [List.find?_eq_none] at hf
    have := hf s (mem_allSquares s)
    simp [hs] at this
  | some t =>
    have := List.find?_some hf
    simp only [decide_eq_true_eq] at this
    rw [huniq t this]

/-- A legal move of the side to move does not land on a king when the other side is not
attacked. -/
theorem legal_dest_not_king (g : Game) (hinv : GameInv g) (sel : Square) (row col : Fin 8)
    (hsel : g.selected = some sel) (hl : Legal g.board sel.row sel.col row col false)
    (white : Bool) : g.board row col ≠ kingOf white := by
  intro hk
  have hside := hinv.selection sel hsel
  obtain ⟨role, w, hr, hw, hd, hp⟩ := hl.1
  rw [hside] at hw
  cases hw
  have hdside : (g.board row col).side = some white := by rw [hk]; exact kingOf_side white
  rcases hd with hd | hd
  · rw [hd] at hdside
    cases hdside
  · rw [hdside] at hd
    have hwhite : white = !g.whiteToMove := Option.some.inj hd
    subst hwhite
    obtain ⟨k, hk1, hk2⟩ := hinv.oneKing (!g.whiteToMove)
    have hkk : (⟨row, col⟩ : Square) = k := hk2 ⟨row, col⟩ hk
    apply hinv.safe
    refine ⟨k, findKing_eq_some g.board _ k hk1 hk2, sel, ?_, ?_⟩
    · rw [hside]; simp
    · rw [← hkk]
      exact hl.1

theorem oneKing_move (board : Board) (fromRow fromCol toRow toCol : Fin 8) (white : Bool)
    (hne : ¬ (toRow = fromRow ∧ toCol = fromCol))
    (hdest : board toRow toCol ≠ kingOf white)
    (h : ∃! s : Square, board s.row s.col = kingOf white) :
    ∃! s : Square, (board.move fromRow fromCol toRow toCol) s.row s.col = kingOf white := by
  have hke : kingOf white ≠ Piece.empty := by cases white <;> decide
  have hmove : ∀ r c, (board.move fromRow fromCol toRow toCol) r c =
      if r = fromRow ∧ c = fromCol then Piece.empty
      else if r = toRow ∧ c = toCol then board fromRow fromCol else board r c := by
    intro r c
    simp only [Board.move, Board.set]
  obtain ⟨k, hk1, hk2⟩ := h
  by_cases hp : board fromRow fromCol = kingOf white
  · have hkf : k = ⟨fromRow, fromCol⟩ := (hk2 ⟨fromRow, fromCol⟩ hp).symm
    refine ⟨⟨toRow, toCol⟩, ?_, ?_⟩
    · show (board.move fromRow fromCol toRow toCol) toRow toCol = kingOf white
      rw [hmove, if_neg hne, if_pos ⟨rfl, rfl⟩]
      exact hp
    · intro t ht
      simp only [hmove] at ht
      split_ifs at ht with h1 h2
      · exact absurd ht.symm hke
      · cases t
        simp only at h2
        rw [h2.1, h2.2]
      · have := hk2 t ht
        rw [hkf] at this
        rw [this] at h1
        exact absurd ⟨rfl, rfl⟩ h1
  · have hkf : ¬ (k.row = fromRow ∧ k.col = fromCol) := by
      rintro ⟨h1, h2⟩
      rw [h1, h2] at hk1
      exact hp hk1
    have hkt : ¬ (k.row = toRow ∧ k.col = toCol) := by
      rintro ⟨h1, h2⟩
      rw [h1, h2] at hk1
      exact hdest hk1
    refine ⟨k, ?_, ?_⟩
    · show (board.move fromRow fromCol toRow toCol) k.row k.col = kingOf white
      rw [hmove, if_neg hkf, if_neg hkt]
      exact hk1
    · intro t ht
      simp only [hmove] at ht
      split_ifs at ht with h1 h2
      · exact absurd ht.symm hke
      · exact absurd ht hp
      · exact hk2 t ht

theorem gameInv_initial : GameInv initialGame := by
  refine ⟨?_, ?_, ?_⟩
  · intro white
    cases white
    · refine ⟨⟨0, 4⟩, by decide, ?_⟩
      intro t ht
      revert ht
      obtain ⟨r, c⟩ := t
      revert r c
      decide
    · refine ⟨⟨7, 4⟩, by decide, ?_⟩
      intro t ht
      revert ht
      obtain ⟨r, c⟩ := t
      revert r c
      decide
  · intro s hs
    cases hs
  · have h := isInCheck_eq initialBoard false
    rw [show isInCheck initialBoard false = some false by decide!] at h
    intro ha
    simp [show Attacked initialBoard false from ha] at h

theorem isWhite_of_side (p : Piece) (white : Bool) (h : p.side = some white) :
    isWhite p = white := by
  cases white <;> cases p <;> first | exact absurd h (by decide) | decide

theorem gameInv_step (g g1 : Game) (message : Option Message) (row col : Fin 8)
    (hinv : GameInv g) (h : handleClick g row col = some (g1, message)) : GameInv g1 := by
  cases hsel : g.selected with
  | some sel =>
    by_cases hl : Legal g.board sel.row sel.col row col false
    · rw [handleClick_commit g sel row col hsel hl] at h
      simp only [Option.some.injEq, Prod.mk.injEq] at h
      obtain ⟨rfl, -⟩ := h
      have hside := hinv.selection sel hsel
      refine ⟨?_, ?_, ?_⟩
      · intro white
        exact oneKing_move g.board sel.row sel.col row col white (legal_ne _ _ _ _ _ _ hl)
          (legal_dest_not_king g hinv sel row col hsel hl white) (hinv.oneKing white)
      · intro s hs
        cases hs
      · have hw : isWhite (g.board sel.row sel.col) = g.whiteToMove :=
          isWhite_of_side _ _ hside
        have := hl.2 rfl
        rw [hw] at this
        simpa using this
    · rw [handleClick_reject g sel row col hsel hl] at h
      simp only [Option.some.injEq, Prod.mk.injEq] at h
      obtain ⟨rfl, -⟩ := h
      exact ⟨hinv.oneKing, fun s hs => (by cases hs), hinv.safe⟩
  | none =>
    by_cases hown : (g.board row col).side = some g.whiteToMove
    · rw [handleClick_select g row col hsel hown] at h
      simp only [Option.some.injEq, Prod.mk.injEq] at h
      obtain ⟨rfl, -⟩ := h
      refine ⟨hinv.oneKing, ?_, hinv.safe⟩
      intro s hs
      simp only [Option.some.injEq] at hs
      subst hs
      exact hown
    · rw [handleClick_ignore g row col hsel hown] at h
      simp only [Option.some.injEq, Prod.mk.injEq] at h
      obtain ⟨rfl, -⟩ := h
      exact hinv

theorem gameInv_of_reachable (g : Game) (h : Reachable g) : GameInv g := by
  induction h with
  | initial => exact gameInv_initial
  | click row col _ hstep ih => exact gameInv_step _ _ _ row col ih hstep

theorem handleClick_total (g : Game) (row col : Fin 8) :
    ∃ g1 message, handleClick g row col = some (g1, message) := by
  cases hsel : g.selected with
  | some sel =>
    by_cases hl : Legal g.board sel.row sel.col row col false
    · exact ⟨_, _, handleClick_commit g sel row col hsel hl⟩
    · exact ⟨_, _, handleClick_reject g sel row col hsel hl⟩
  | none =>
    by_cases hown : (g.board row col).side = some g.whiteToMove
    · exact ⟨_, _, handleClick_select g row col hsel hown⟩
    · exact ⟨_, _, handleClick_ignore g row col hsel hown⟩

/-- A click changes the turn only by committing a legal move of the selected piece. -/
theorem turn_change_is_commit (g g1 : Game) (message : Option Message) (row col : Fin 8)
    (h : handleClick g row col = some (g1, message))
    (hturn : g1.whiteToMove ≠ g.whiteToMove) :
    ∃ sel, g.selected = some sel ∧ Legal g.board sel.row sel.col row col false ∧
      g1.board = g.board.move sel.row sel.col row col := by
  cases hsel : g.selected with
  | some sel =>
    by_cases hl : Legal g.board sel.row sel.col row col false
    · rw [handleClick_commit g sel row col hsel hl] at h
      simp only [Option.some.injEq, Prod.mk.injEq] at h
      obtain ⟨rfl, -⟩ := h
      exact ⟨sel, rfl, hl, rfl⟩
    · rw [handleClick_reject g sel row col hsel hl] at h
      simp only [Option.some.injEq, Prod.mk.injEq] at h
      obtain ⟨rfl, -⟩ := h
      exact absurd rfl hturn
  | none =>
    by_cases hown : (g.board row col).side = some g.whiteToMove
    · rw [handleClick_select g row col hsel hown] at h
      simp only [Option.some.injEq, Prod.mk.injEq] at h
      obtain ⟨rfl, -⟩ := h
      exact absurd rfl hturn
    · rw [handleClick_ignore g row col hsel hown] at h
      simp only [Option.some.injEq, Prod.mk.injEq] at h
      obtain ⟨rfl, -⟩ := h
      exact absurd rfl hturn

theorem reachable_clicks (l : List Square) :
    ∀ g g1 : Game, Reachable g → clicks g l = some g1 → Reachable g1 := by
  induction l with
  | nil =>
    intro g g1 hg h
    simp only [clicks, Option.some.injEq] at h
    rw [← h]
    exact hg
  | cons s rest ih =>
    intro g g1 hg h
    obtain ⟨g2, message, h2⟩ := handleClick_total g s.row s.col
    simp only [clicks, h2] at h
    exact ih g2 g1 (Reachable.click s.row s.col hg h2) h

theorem reachable_afterF3 : Reachable afterF3 :=
  reachable_clicks _ initialGame afterF3 Reachable.initial
    (clicks_move initialGame ⟨6, 5⟩ ⟨5, 5⟩ rfl (by decide) (by decide!))

/-- C7: in every reachable state the board holds exactly one white and one black king,
`findKing` finds each of them, and no click that commits a move lands on a king. -/
theorem reachable_one_king_each (g : Game) (h : Reachable g) :
    (∃! s : Square, g.board s.row s.col = Piece.wK) ∧
    (∃! s : Square, g.board s.row s.col = Piece.bK) ∧
    findKing g.board true ≠ none ∧ findKing g.board false ≠ none ∧
    ∀ (row col : Fin 8) (g1 : Game) (message : Option Message),
      handleClick g row col = some (g1, message) → g1.whiteToMove ≠ g.whiteToMove →
        g.board row col ≠ Piece.wK ∧ g.board row col ≠ Piece.bK := by
  have hinv := gameInv_of_reachable g h
  have hfind : ∀ white, findKing g.board white ≠ none := by
    intro white
    obtain ⟨k, hk1, hk2⟩ := hinv.oneKing white
    rw [findKing_eq_some g.board white k hk1 hk2]
    exact Option.some_ne_none k
  refine ⟨hinv.oneKing true, hinv.oneKing false, hfind true, hfind false, ?_⟩
  intro row col g1 message hstep hturn
  obtain ⟨sel, hsel, hl, -⟩ := turn_change_is_commit g g1 message row col hstep hturn
  exact ⟨legal_dest_not_king g hinv sel row col hsel hl true,
    legal_dest_not_king g hinv sel row col hsel hl false⟩

/-- C7 at the state after 1. f3. -/
theorem reachable_one_king_each_witness :
    Reachable afterF3 ∧
    (∃! s : Square, afterF3.board s.row s.col = Piece.wK) ∧
    (∃! s : Square, afterF3.board s.row s.col = Piece.bK) ∧
    findKing afterF3.board true ≠ none ∧ findKing afterF3.board false ≠ none ∧
    ∀ (row col : Fin 8) (g1 : Game) (message : Option Message),
      handleClick afterF3 row col = some (g1, message) →
        g1.whiteToMove ≠ afterF3.whiteToMove →
        afterF3.board row col ≠ Piece.wK ∧ afterF3.board row col ≠ Piece.bK :=
  ⟨reachable_afterF3, reachable_one_king_each afterF3 reachable_afterF3⟩

/-! ## Terminal states -/

theorem clicks_frozen (board : Board) (white : Bool) (hno : ¬ HasLegalMove board white)
    (l : List Square) :
    ∀ sel : Option Square, (∀ s, sel = some s → (board s.row s.col).side = some white) →
      ∃ g1, clicks ⟨board, sel, white⟩ l = some g1 ∧ g1.board = board ∧
        g1.whiteToMove = white := by
  induction l with
  | nil =>
    intro sel _
    exact ⟨_, rfl, rfl, rfl⟩
  | cons s rest ih =>
    intro sel hsel
    cases sel with
    | some t =>
      have hl : ¬ Legal board t.row t.col s.row s.col false :=
        fun hl => hno ⟨t, s, hsel t rfl, hl⟩
      have h := handleClick_reject ⟨board, some t, white⟩ t s.row s.col rfl hl
      simp only [clicks, h]
      exact ih none (fun u hu => by cases hu)
    | none =>
      by_cases hown : (board s.row s.col).side = some white
      · have h := handleClick_select ⟨board, none, white⟩ s.row s.col rfl hown
        simp only [clicks, h]
        refine ih (some ⟨s.row, s.col⟩) ?_
        intro u hu
        simp only [Option.some.injEq] at hu
        subst hu
        exact hown
      · have h := handleClick_ignore ⟨board, none, white⟩ s.row s.col rfl hown
        simp only [clicks, h]
        exact ih none (fun u hu => by cases hu)

/-- A click answered by a checkmate or stalemate message has committed a move and left the
side to move without a legal move. -/
theorem terminal_message (g0 g : Game) (row col : Fin 8) (message : Message)
    (h : handleClick g0 row col = some (g, some message))
    (hterm : message = Message.blackWinsByCheckmate ∨
      message = Message.whiteWinsByCheckmate ∨ message = Message.stalemate) :
    g.selected = none ∧ ¬ HasLegalMove g.board g.whiteToMove := by
  cases hsel : g0.selected with
  | some sel =>
    by_cases hl : Legal g0.board sel.row sel.col row col false
    · rw [handleClick_commit g0 sel row col hsel hl] at h
      simp only [Option.some.injEq, Prod.mk.injEq] at h
      obtain ⟨rfl, hm⟩ := h
      refine ⟨rfl, ?_⟩
      show ¬ HasLegalMove (g0.board.move sel.row sel.col row col) (!g0.whiteToMove)
      intro hhas
      revert hm
      generalize g0.board.move sel.row sel.col row col = b at hhas ⊢
      generalize (!g0.whiteToMove) = w at hhas ⊢
      intro hm
      by_cases ha : Attacked b w <;> simp [ha, hhas] at hm <;>
        rcases hterm with rfl | rfl | rfl <;> cases hm
    · rw [handleClick_reject g0 sel row col hsel hl] at h
      simp only [Option.some.injEq, Prod.mk.injEq] at h
      obtain ⟨-, rfl⟩ := h
      rcases hterm with h | h | h <;> cases h
  | none =>
    by_cases hown : (g0.board row col).side = some g0.whiteToMove
    · rw [handleClick_select g0 row col hsel hown] at h
      simp only [Option.some.injEq, Prod.mk.injEq] at h
      obtain ⟨-, rfl⟩ := h
      rcases hterm with h | h | h <;> cases h
    · rw [handleClick_ignore g0 row col hsel hown] at h
      simp only [Option.some.injEq, Prod.mk.injEq] at h
      exact absurd h.2 (by simp)

/-- C8: after a click answered by a checkmate or stalemate message the side to move has no
approved move, and every further sequence of clicks is handled and leaves the board and the
turn as they are. -/
theorem terminal_accepts_no_move (g0 g : Game) (row col : Fin 8) (message : Message)
    (h : handleClick g0 row col = some (g, some message))
    (hterm : message = Message.blackWinsByCheckmate ∨
      message = Message.whiteWinsByCheckmate ∨ message = Message.stalemate)
    (l : List Square) :
    (hasLegalMoves g.board g.whiteToMove).map Prod.fst = some false ∧
    ∃ g1, clicks g l = some g1 ∧ g1.board = g.board ∧ g1.whiteToMove = g.whiteToMove := by
  obtain ⟨hsel, hno⟩ := terminal_message g0 g row col message h hterm
  constructor
  · rw [hasLegalMoves_eq]
    simp [hno]
  · obtain ⟨board, selected, whiteToMove⟩ := g
    simp only at hsel hno
    subst hsel
    exact clicks_frozen board whiteToMove hno l none (fun s hs => by cases hs)

theorem handleClick_beforeStalemate :
    handleClick beforeStalemate 5 1 = some (stalemated, some Message.stalemate) :=
  handleClick_commit_message beforeStalemate ⟨0, 1⟩ 5 1 false false rfl (by decide!)
    (by decide!) (by decide!)

/-- C8 at the stalemate reached by Qb8-b3, followed by a try of the king move a1-a2 and a
click on the black queen. -/
theorem terminal_accepts_no_move_witness :
    handleClick beforeStalemate 5 1 = some (stalemated, some Message.stalemate) ∧
    (Message.stalemate = Message.blackWinsByCheckmate ∨
      Message.stalemate = Message.whiteWinsByCheckmate ∨
      Message.stalemate = Message.stalemate) ∧
    (hasLegalMoves stalemated.board stalemated.whiteToMove).map Prod.fst = some false ∧
    ∃ g1, clicks stalemated [⟨7, 0⟩, ⟨6, 0⟩, ⟨5, 1⟩] = some g1 ∧
      g1.board = stalemated.board ∧ g1.whiteToMove = stalemated.whiteToMove :=
  ⟨handleClick_beforeStalemate, Or.inr (Or.inr rfl),
    terminal_accepts_no_move beforeStalemate stalemated 5 1 Message.stalemate
      handleClick_beforeStalemate (Or.inr (Or.inr rfl)) [⟨7, 0⟩, ⟨6, 0⟩, ⟨5, 1⟩]⟩

/-! ## The status message -/

/-- C3: after a committed move the message written is the status of the side to move: the
four cases of the rule book, each with its own text, of which the message is exactly one;
the winner a checkmate message names is the side that had the turn, which in a reachable
state is the side of the piece that has moved. -/
theorem handleClick_status_correct (g : Game) (sel : Square) (row col : Fin 8)
    (hsel : g.selected = some sel)
    (hvalid : (isValidMove g.board sel.row sel.col row col false).map Prod.fst = some true) :
    ∃ g1 message, handleClick g row col = some (g1, some message) ∧
      g1.whiteToMove = (!g.whiteToMove) ∧
      StatusCorrect g1.board g1.whiteToMove message ∧
      (message = (if g1.whiteToMove then Message.blackWinsByCheckmate
          else Message.whiteWinsByCheckmate) ∨
        message = Message.stalemate ∨ message = Message.check ∨ message = Message.blank) ∧
      (Reachable g → (g.board sel.row sel.col).side = some (!g1.whiteToMove)) := by
  have hl := (legal_iff_isValidMove _ _ _ _ _ _).mp hvalid
  refine ⟨_, _, handleClick_commit g sel row col hsel hl, rfl, ?_, ?_, ?_⟩
  · unfold StatusCorrect
    simp only [← hasLegalMove_iff, isInCheck_eq]
    generalize g.board.move sel.row sel.col row col = b
    generalize (!g.whiteToMove) = w
    by_cases ha : Attacked b w <;> by_cases hm : HasLegalMove b w <;> cases w <;>
      simp [ha, hm]
  · simp only []
    generalize g.board.move sel.row sel.col row col = b
    generalize (!g.whiteToMove) = w
    by_cases ha : Attacked b w <;> by_cases hm : HasLegalMove b w <;> cases w <;>
      simp [ha, hm]
  · intro hreach
    rw [(gameInv_of_reachable g hreach).selection sel hsel]
    simp

/-- C3 at the mating move of the fool's mate. -/
theorem handleClick_status_correct_witness :
    beforeMate.selected = some ⟨0, 3⟩ ∧
    (isValidMove beforeMate.board 0 3 4 7 false).map Prod.fst = some true ∧
    ∃ g1 message, handleClick beforeMate 4 7 = some (g1, some message) ∧
      g1.whiteToMove = (!beforeMate.whiteToMove) ∧
      StatusCorrect g1.board g1.whiteToMove message ∧
      (message = (if g1.whiteToMove then Message.blackWinsByCheckmate
          else Message.whiteWinsByCheckmate) ∨
        message = Message.stalemate ∨ message = Message.check ∨ message = Message.blank) ∧
      (Reachable beforeMate → (beforeMate.board 0 3).side = some (!g1.whiteToMove)) :=
  ⟨rfl, by decide!, handleClick_status_correct beforeMate ⟨0, 3⟩ 4 7 rfl (by decide!)⟩

/-! ## The piece classifier -/

/-- C11 fails at the empty marker: both `isWhite('')` and `isBlack('')` are true, since the
empty string is a substring of every string. -/
theorem classifier_claims_empty_marker :
    isWhite Piece.empty = true ∧ isBlack Piece.empty = true := by
  decide

/-- C11 amended: `isWhite` is true exactly for the six white symbols and the empty marker,
`isBlack` exactly for the six black symbols and the empty marker; no value other than the
empty marker is claimed by both. -/
theorem classifier_exact (p : Piece) :
    (isWhite p = true ↔
      p = .empty ∨ p = .wK ∨ p = .wQ ∨ p = .wR ∨ p = .wB ∨ p = .wN ∨ p = .wP) ∧
    (isBlack p = true ↔
      p = .empty ∨ p = .bK ∨ p = .bQ ∨ p = .bR ∨ p = .bB ∨ p = .bN ∨ p = .bP) ∧
    ((isWhite p = true ∧ isBlack p = true) ↔ p = .empty) := by
  cases p <;> decide

/-! ## Rejections and piece patterns -/

theorem not_legal_of_empty (board : Board) (fromRow fromCol toRow toCol : Fin 8)
    (skipCheck : Bool) (h : board fromRow fromCol = Piece.empty) :
    ¬ Legal board fromRow fromCol toRow toCol skipCheck := by
  rintro ⟨⟨role, white, -, hw, -⟩, -⟩
  rw [h] at hw
  cases hw

theorem not_legal_of_same_side (board : Board) (fromRow fromCol toRow toCol : Fin 8)
    (skipCheck : Bool) (white : Bool) (hs : (board fromRow fromCol).side = some white)
    (hd : (board toRow toCol).side = some white) :
    ¬ Legal board fromRow fromCol toRow toCol skipCheck := by
  rintro ⟨⟨role, white1, -, hw, hdest, -⟩, -⟩
  rw [hs] at hw
  cases hw
  rcases hdest with h | h
  · rw [h] at hd
    cases hd
  · rw [hd] at h
    cases white <;> cases h

theorem isValidMove_false_of_not_legal (board : Board) (fromRow fromCol toRow toCol : Fin 8)
    (skipCheck : Bool) (h : ¬ Legal board fromRow fromCol toRow toCol skipCheck) :
    isValidMove board fromRow fromCol toRow toCol skipCheck = some (false, board) := by
  rw [isValidMove_eq]
  simp [h]

/-- C12: `isValidMove` returns false when the source is empty, when source and destination
hold pieces of the same side, and when source and destination are the same square. -/
theorem isValidMove_rejects_empty_and_same_side (board : Board)
    (fromRow fromCol toRow toCol : Fin 8) (skipCheck : Bool) :
    (board fromRow fromCol = Piece.empty →
      isValidMove board fromRow fromCol toRow toCol skipCheck = some (false, board)) ∧
    (∀ white, (board fromRow fromCol).side = some white →
      (board toRow toCol).side = some white →
      isValidMove board fromRow fromCol toRow toCol skipCheck = some (false, board)) ∧
    isValidMove board fromRow fromCol fromRow fromCol skipCheck = some (false, board) := by
  refine ⟨?_, ?_, ?_⟩
  · intro h
    exact isValidMove_false_of_not_legal _ _ _ _ _ _ (not_legal_of_empty _ _ _ _ _ _ h)
  · intro white hs hd
    exact isValidMove_false_of_not_legal _ _ _ _ _ _
      (not_legal_of_same_side _ _ _ _ _ _ white hs hd)
  · exact isValidMove_false_of_not_legal _ _ _ _ _ _
      (fun h => legal_ne _ _ _ _ _ _ h ⟨rfl, rfl⟩)

/-- C12 on the initial board: the empty square e4 as source, and the rook a1 onto the pawn
a2. -/
theorem isValidMove_rejects_empty_and_same_side_witness :
    isValidMove initialBoard 4 4 3 4 false = some (false, initialBoard) ∧
    isValidMove initialBoard 7 0 6 0 false = some (false, initialBoard) :=
  ⟨(isValidMove_rejects_empty_and_same_side initialBoard 4 4 3 4 false).1 (by decide),
    (isValidMove_rejects_empty_and_same_side initialBoard 7 0 6 0 false).2.1 true
      (by decide) (by decide)⟩

theorem referenceRule_of_valid (board : Board) (fromRow fromCol toRow toCol : Fin 8)
    (skipCheck : Bool)
    (h : (isValidMove board fromRow fromCol toRow toCol skipCheck).map Prod.fst = some true) :
    ReferenceRule board fromRow fromCol toRow toCol :=
  ((legal_iff_isValidMove _ _ _ _ _ _).mp h).1

theorem rolePattern_of_valid (board : Board) (fromRow fromCol toRow toCol : Fin 8)
    (skipCheck : Bool) (role : Role) (white : Bool)
    (hr : (board fromRow fromCol).role = some role)
    (hw : (board fromRow fromCol).side = some white)
    (h : (isValidMove board fromRow fromCol toRow toCol skipCheck).map Prod.fst = some true) :
    RolePattern board fromRow fromCol toRow toCol role white := by
  obtain ⟨role1, white1, h1, h2, -, h4⟩ := referenceRule_of_valid _ _ _ _ _ _ h
  rw [hr] at h1
  rw [hw] at h2
  cases h1
  cases h2
  exact h4

/-- C13: an approved pawn move that stays on the file is one square forward, or two squares
forward from the starting rank (row 6 for white, row 1 for black) with the square in between
and the destination empty. -/
theorem pawn_straight_moves (board : Board) (fromRow fromCol toRow : Fin 8) (skipCheck : Bool)
    (h : (isValidMove board fromRow fromCol toRow fromCol skipCheck).map Prod.fst = some true) :
    (board fromRow fromCol = Piece.wP →
      (toRow : Int) = fromRow - 1 ∨
      ((toRow : Int) = fromRow - 2 ∧ fromRow = 6 ∧ board 5 fromCol = Piece.empty ∧
        board toRow fromCol = Piece.empty)) ∧
    (board fromRow fromCol = Piece.bP →
      (toRow : Int) = fromRow + 1 ∨
      ((toRow : Int) = fromRow + 2 ∧ fromRow = 1 ∧ board 2 fromCol = Piece.empty ∧
        board toRow fromCol = Piece.empty)) := by
  constructor
  · intro hp
    have hpat := rolePattern_of_valid board fromRow fromCol toRow fromCol skipCheck .pawn true
      (by rw [hp]; rfl) (by rw [hp]; rfl) h
    simp only [RolePattern] at hpat
    rcases hpat with ⟨-, h2, -⟩ | ⟨-, h2, h3, h4, h5⟩ | ⟨h1, -, -⟩
    · left; omega
    · right; exact ⟨by omega, h3, h4, h5⟩
    · omega
  · intro hp
    have hpat := rolePattern_of_valid board fromRow fromCol toRow fromCol skipCheck .pawn false
      (by rw [hp]; rfl) (by rw [hp]; rfl) h
    simp only [RolePattern] at hpat
    rcases hpat with ⟨-, h2, -⟩ | ⟨-, h2, h3, h4, h5⟩ | ⟨h1, -, -⟩
    · left; omega
    · right; exact ⟨by omega, h3, h4, h5⟩
    · omega

/-- C13 at the double step e2-e4 on the initial board. -/
theorem pawn_straight_moves_witness :
    (isValidMove initialBoard 6 4 4 4 false).map Prod.fst = some true ∧
    (initialBoard 6 4 = Piece.wP →
      ((4 : Fin 8) : Int) = (6 : Fin 8) - 1 ∨
      (((4 : Fin 8) : Int) = (6 : Fin 8) - 2 ∧ (6 : Fin 8) = 6 ∧
        initialBoard 5 4 = Piece.empty ∧ initialBoard 4 4 = Piece.empty)) ∧
    (initialBoard 6 4 = Piece.bP →
      ((4 : Fin 8) : Int) = (6 : Fin 8) + 1 ∨
      (((4 : Fin 8) : Int) = (6 : Fin 8) + 2 ∧ (6 : Fin 8) = 1 ∧
        initialBoard 2 4 = Piece.empty ∧ initialBoard 4 4 = Piece.empty)) :=
  ⟨by decide!, pawn_straight_moves initialBoard 6 4 4 false (by decide!)⟩

/-- C14: a one-square forward diagonal pawn move is approved, safety checking skipped, exactly
when the destination holds a piece of the other side, and a pawn move along the file onto an
occupied square is never approved. -/
theorem pawn_captures_only_diagonally (board : Board) (fromRow fromCol toRow toCol : Fin 8)
    (skipCheck : Bool) :
    (board fromRow fromCol = Piece.wP → (toRow : Int) = fromRow - 1 →
      ((toCol : Int) - fromCol).natAbs = 1 →
      (isValidMove board fromRow fromCol toRow toCol true).map Prod.fst =
        some (decide ((board toRow toCol).side = some false))) ∧
    (board fromRow fromCol = Piece.bP → (toRow : Int) = fromRow + 1 →
      ((toCol : Int) - fromCol).natAbs = 1 →
      (isValidMove board fromRow fromCol toRow toCol true).map Prod.fst =
        some (decide ((board toRow toCol).side = some true))) ∧
    ((board fromRow fromCol = Piece.wP ∨ board fromRow fromCol = Piece.bP) →
      toCol = fromCol → board toRow toCol ≠ Piece.empty →
      (isValidMove board fromRow fromCol toRow toCol skipCheck).map Prod.fst = some false) := by
  refine ⟨?_, ?_, ?_⟩
  · intro hp hr hc
    rw [isValidMove_eq]
    simp only [Option.map_some', Option.some.injEq]
    apply decide_eq_decide.mpr
    constructor
    · rintro ⟨⟨role, white, h1, h2, h3, h4⟩, -⟩
      rw [hp] at h1 h2
      cases h1
      cases h2
      simp only [RolePattern] at h4
      rcases h3 with h3 | h3
      · rcases h4 with ⟨h, -⟩ | ⟨h, -⟩ | ⟨-, -, h⟩
        · omega
        · omega
        · exact absurd h3 h
      · exact h3
    · intro hd
      refine ⟨⟨.pawn, true, by rw [hp]; rfl, by rw [hp]; rfl, Or.inr hd, ?_⟩, fun h => by cases h⟩
      simp only [RolePattern]
      refine Or.inr (Or.inr ⟨hc, by omega, ?_⟩)
      intro he
      rw [he] at hd
      cases hd
  · intro hp hr hc
    rw [isValidMove_eq]
    simp only [Option.map_some', Option.some.injEq]
    apply decide_eq_decide.mpr
    constructor
    · rintro ⟨⟨role, white, h1, h2, h3, h4⟩, -⟩
      rw [hp] at h1 h2
      cases h1
      cases h2
      simp only [RolePattern] at h4
      rcases h3 with h3 | h3
      · rcases h4 with ⟨h, -⟩ | ⟨h, -⟩ | ⟨-, -, h⟩
        · omega
        · omega
        · exact absurd h3 h
      · exact h3
    · intro hd
      refine ⟨⟨.pawn, false, by rw [hp]; rfl, by rw [hp]; rfl, Or.inr hd, ?_⟩,
        fun h => by cases h⟩
      simp only [RolePattern]
      refine Or.inr (Or.inr ⟨hc, by omega, ?_⟩)
      intro he
      rw [he] at hd
      cases hd
  · intro hp hc hd
    rw [isValidMove_eq]
    simp only [Option.map_some', Option.some.injEq, decide_eq_false_iff_not]
    rintro ⟨⟨role, white, h1, h2, -, h4⟩, -⟩
    rcases hp with hp | hp <;> rw [hp] at h1 h2 <;> cases h1 <;> cases h2 <;>
      simp only [RolePattern] at h4 <;>
      rcases h4 with ⟨-, -, h⟩ | ⟨-, -, -, -, h⟩ | ⟨h, -, -⟩ <;>
      first | exact hd h | (rw [hc] at h; simp at h)

/-- C14 on the pin board with a white pawn added on d7: the capture d7xe8 of the black rook,
the empty diagonal square c8, and the straight step of a black pawn onto an occupied square
on the initial board with the e2 pawn moved to e6. -/
theorem pawn_captures_only_diagonally_witness :
    (isValidMove (pinBoard.set 1 3 Piece.wP) 1 3 0 4 true).map Prod.fst =
      some (decide (((pinBoard.set 1 3 Piece.wP) 0 4).side = some false)) ∧
    (isValidMove (initialBoard.move 6 4 2 4) 1 3 2 4 true).map Prod.fst =
      some (decide (((initialBoard.move 6 4 2 4) 2 4).side = some true)) ∧
    (isValidMove (initialBoard.move 6 4 2 4) 1 4 2 4 false).map Prod.fst = some false :=
  ⟨(pawn_captures_only_diagonally (pinBoard.set 1 3 Piece.wP) 1 3 0 4 true).1
      (by decide) (by decide) (by decide),
    (pawn_captures_only_diagonally (initialBoard.move 6 4 2 4) 1 3 2 4 true).2.1
      (by decide) (by decide) (by decide),
    (pawn_captures_only_diagonally (initialBoard.move 6 4 2 4) 1 4 2 4 false).2.2
      (Or.inr (by decide)) (by decide) (by decide)⟩

/-- C15: an approved move of a rook, bishop or queen joins two squares of a line allowed for
the role, with every square strictly between them empty. -/
theorem sliding_move_needs_clear_line (board : Board) (fromRow fromCol toRow toCol : Fin 8)
    (skipCheck : Bool)
    (h : (isValidMove board fromRow fromCol toRow toCol skipCheck).map Prod.fst = some true) :
    ((board fromRow fromCol).role = some Role.rook →
      (fromRow = toRow ∨ fromCol = toCol) ∧ PathEmpty board fromRow fromCol toRow toCol) ∧
    ((board fromRow fromCol).role = some Role.bishop →
      ((toRow : Int) - fromRow).natAbs = ((toCol : Int) - fromCol).natAbs ∧
        PathEmpty board fromRow fromCol toRow toCol) ∧
    ((board fromRow fromCol).role = some Role.queen →
      (fromRow = toRow ∨ fromCol = toCol ∨
        ((toRow : Int) - fromRow).natAbs = ((toCol : Int) - fromCol).natAbs) ∧
        PathEmpty board fromRow fromCol toRow toCol) := by
  obtain ⟨white, hw⟩ := legal_source _ _ _ _ _ _ ((legal_iff_isValidMove _ _ _ _ _ _).mp h)
  refine ⟨?_, ?_, ?_⟩
  · intro hr
    have hpat := rolePattern_of_valid board fromRow fromCol toRow toCol skipCheck _ white hr hw h
    simpa only [RolePattern] using hpat
  · intro hr
    have hpat := rolePattern_of_valid board fromRow fromCol toRow toCol skipCheck _ white hr hw h
    simpa only [RolePattern] using hpat
  · intro hr
    have hpat := rolePattern_of_valid board fromRow fromCol toRow toCol skipCheck _ white hr hw h
    simp only [RolePattern] at hpat
    rcases hpat with ⟨h1, h2⟩ | ⟨h1, h2⟩
    · exact ⟨by tauto, h2⟩
    · exact ⟨Or.inr (Or.inr h1), h2⟩

/-- C15 at the rook move e2-e5 on the pin board. -/
theorem sliding_move_needs_clear_line_witness :
    (isValidMove pinBoard 6 4 3 4 false).map Prod.fst = some true ∧
    ((pinBoard 6 4).role = some Role.rook →
      ((6 : Fin 8) = 3 ∨ (4 : Fin 8) = 4) ∧ PathEmpty pinBoard 6 4 3 4) ∧
    ((pinBoard 6 4).role = some Role.bishop →
      (((3 : Fin 8) : Int) - (6 : Fin 8)).natAbs = (((4 : Fin 8) : Int) - (4 : Fin 8)).natAbs ∧
        PathEmpty pinBoard 6 4 3 4) ∧
    ((pinBoard 6 4).role = some Role.queen →
      ((6 : Fin 8) = 3 ∨ (4 : Fin 8) = 4 ∨
        (((3 : Fin 8) : Int) - (6 : Fin 8)).natAbs = (((4 : Fin 8) : Int) - (4 : Fin 8)).natAbs) ∧
        PathEmpty pinBoard 6 4 3 4) :=
  ⟨by decide, sliding_move_needs_clear_line pinBoard 6 4 3 4 false (by decide)⟩

/-- C18: at load time white has an approved move and is not in check. -/
theorem initial_state_has_moves_no_check :
    initialGame.whiteToMove = true ∧
    (hasLegalMoves initialGame.board true).map Prod.fst = some true ∧
    isInCheck initialGame.board true = some false := by
  refine ⟨rfl, ?_, ?_⟩ <;> decide!

/-! ## The king search -/

theorem allSquares_sorted : allSquares.Pairwise Square.before := by
  decide

theorem before_asymm (s t : Square) (h : s.before t) : ¬ t.before s := by
  unfold Square.before at *
  simp only [Fin.lt_def, Fin.ext_iff] at *
  omega

theorem before_irrefl (s : Square) : ¬ s.before s := fun h => before_asymm s s h h

theorem find?_first_of_sorted (p : Square → Bool) (k : Square) (hp : p k = true)
    (hfirst : ∀ s : Square, s.before k → p s = false) :
    ∀ l : List Square, l.Pairwise Square.before → k ∈ l → l.find? p = some k := by
  intro l
  induction l with
  | nil => intro _ hk; cases hk
  | cons a rest ih =>
    intro hl hk
    rw [List.pairwise_cons] at hl
    by_cases ha : a = k
    · rw [ha, List.find?_cons_of_pos _ hp]
    · have hk1 : k ∈ rest := by
        rcases List.mem_cons.mp hk with h | h
        · exact absurd h.symm ha
        · exact h
      have hpa : ¬ (p a = true) := by
        rw [hfirst a (hl.1 k hk1)]
        simp
      rw [List.find?_cons_of_neg _ hpa]
      exact ih hl.2 hk1

theorem findKing_of_firstKing (board : Board) (white : Bool) (k : Square)
    (h : FirstKing board white k) : findKing board white = some k := by
  unfold findKing
  have hk : (if white = true then Piece.wK else Piece.bK) = kingOf white := rfl
  simp only [hk]
  apply find?_first_of_sorted _ k (by simpa using h.1) _ allSquares allSquares_sorted
    (mem_allSquares k)
  intro s hs
  simpa using h.2 s hs

theorem firstKing_of_findKing (board : Board) (white : Bool) (k : Square)
    (h : findKing board white = some k) : FirstKing board white k := by
  unfold findKing at h
  have hk : (if white = true then Piece.wK else Piece.bK) = kingOf white := rfl
  simp only [hk] at h
  obtain ⟨hp, as, bs, hl, has⟩ := List.find?_eq_some.mp h
  refine ⟨by simpa using hp, ?_⟩
  intro s hs
  have hsorted := allSquares_sorted
  rw [hl, List.pairwise_append] at hsorted
  have hmem : s ∈ as ++ k :: bs := by rw [← hl]; exact mem_allSquares s
  rcases List.mem_append.mp hmem with h1 | h1
  · simpa using has s h1
  · rcases List.mem_cons.mp h1 with h2 | h2
    · rw [h2] at hs
      exact absurd hs (before_irrefl k)
    · have := (List.pairwise_cons.mp hsorted.2.1).1 s h2
      exact absurd hs (before_asymm k s this)

theorem findKing_eq_none_iff (board : Board) (white : Bool) :
    findKing board white = none ↔ ∀ s : Square, board s.row s.col ≠ kingOf white := by
  unfold findKing
  have hk : (if white = true then Piece.wK else Piece.bK) = kingOf white := rfl
  simp only [hk, List.find?_eq_none, decide_eq_true_eq]
  exact ⟨fun h s => h s (mem_allSquares s), fun h s _ => h s⟩

/-- C16: `isInCheck` returns false when the side's king is nowhere on the board; otherwise the
first king square in row-major order exists and `isInCheck` returns true exactly when some
square holds a piece of the other side that `isValidMove`, safety checking skipped, approves
onto that square. -/
theorem isInCheck_characterised (board : Board) (white : Bool) :
    ((∀ s : Square, board s.row s.col ≠ kingOf white) → isInCheck board white = some false) ∧
    ((∃ s : Square, board s.row s.col = kingOf white) → ∃ k, FirstKing board white k) ∧
    (∀ k, FirstKing board white k →
      isInCheck board white = some (decide (∃ s : Square,
        (board s.row s.col).side = some (!white) ∧
        (isValidMove board s.row s.col k.row k.col true).map Prod.fst = some true))) := by
  refine ⟨?_, ?_, ?_⟩
  · intro h
    have hnone := (findKing_eq_none_iff board white).mpr h
    unfold isInCheck
    rw [hnone]
  · rintro ⟨s, hs⟩
    cases hf : findKing board white with
    | none => exact absurd hs ((findKing_eq_none_iff board white).mp hf s)
    | some k => exact ⟨k, firstKing_of_findKing board white k hf⟩
  · intro k hk
    rw [isInCheck_eq]
    congr 1
    apply decide_eq_decide.mpr
    have hfind := findKing_of_firstKing board white k hk
    constructor
    · rintro ⟨k1, h1, s, hs, hr⟩
      rw [hfind] at h1
      cases h1
      exact ⟨s, hs, (legal_iff_isValidMove _ _ _ _ _ _).mpr ⟨hr, fun h => by cases h⟩⟩
    · rintro ⟨s, hs, hv⟩
      exact ⟨k, hfind, s, hs, ((legal_iff_isValidMove _ _ _ _ _ _).mp hv).1⟩

/-- C16 on the mated position of the fool's mate (the queen on h4 attacks the king on e1) and
on a board without a white king. -/
theorem isInCheck_characterised_witness :
    isInCheck (Board.ofRows []) true = some false ∧
    (∃ k, FirstKing mated.board true k) ∧
    isInCheck mated.board true = some (decide (∃ s : Square,
      (mated.board s.row s.col).side = some (!true) ∧
      (isValidMove mated.board s.row s.col (⟨7, 4⟩ : Square).row (⟨7, 4⟩ : Square).col
        true).map Prod.fst = some true)) :=
  ⟨(isInCheck_characterised (Board.ofRows []) true).1 (by decide),
    (isInCheck_characterised mated.board true).2.1 ⟨⟨7, 4⟩, by decide⟩,
    (isInCheck_characterised mated.board true).2.2 ⟨7, 4⟩ (by decide)⟩

/-! ## The reads of the path walk -/

theorem pathReads_mem (board : Board) (rowStep colStep toRow toCol : Int) :
    ∀ (k fuel : Nat) (r c : Int),
      toRow = r + k * rowStep → toCol = c + k * colStep →
      (∀ i : Nat, i < k → ∃ p q : Fin 8, (p : Int) = r + i * rowStep ∧ (q : Int) = c + i * colStep) →
      ∀ x ∈ pathReads board rowStep colStep toRow toCol fuel r c,
        ∃ i : Nat, i < k ∧ x = (r + i * rowStep, c + i * colStep) := by
  intro k
  induction k with
  | zero =>
    intro fuel r c hr hc _ x hx
    simp at hr hc
    cases fuel with
    | zero => simp [pathReads] at hx
    | succ fuel => simp [pathReads, hr, hc] at hx
  | succ k ih =>
    intro fuel r c hr hc hin x hx
    cases fuel with
    | zero => simp [pathReads] at hx
    | succ fuel =>
      rw [pathReads] at hx
      split_ifs at hx with hcond
      · rcases List.mem_cons.mp hx with h0 | hrest
        · exact ⟨0, by omega, by rw [h0]; simp⟩
        · obtain ⟨p0, q0, hp0, hq0⟩ := hin 0 (by omega)
          simp only [Nat.cast_zero, zero_mul, add_zero] at hp0 hq0
          have hread : board.read r c = some (some (board p0 q0)) := by
            rw [← hp0, ← hq0]; exact Board.read_coe board p0 q0
          rw [hread] at hrest
          simp only at hrest
          split_ifs at hrest with hcell
          · cases hrest
          · obtain ⟨i, hi, hxi⟩ := ih fuel (r + rowStep) (c + colStep)
              (by rw [hr]; push_cast; ring) (by rw [hc]; push_cast; ring)
              (by
                intro i hi
                obtain ⟨p, q, hp, hq⟩ := hin (i + 1) (by omega)
                exact ⟨p, q, by rw [hp]; push_cast; ring, by rw [hq]; push_cast; ring⟩)
              x hrest
            refine ⟨i + 1, by omega, ?_⟩
            rw [hxi]
            push_cast
            congr 1 <;> ring
      · cases hx

theorem line_steps (fromRow fromCol toRow toCol : Fin 8)
    (hline : OnLine fromRow fromCol toRow toCol)
    (hne : ¬ (fromRow = toRow ∧ fromCol = toCol)) :
    ∃ n : Nat, 1 ≤ n ∧
      (Int.sign ((toRow : Int) - fromRow) = -1 ∨ Int.sign ((toRow : Int) - fromRow) = 0 ∨
        Int.sign ((toRow : Int) - fromRow) = 1) ∧
      (Int.sign ((toCol : Int) - fromCol) = -1 ∨ Int.sign ((toCol : Int) - fromCol) = 0 ∨
        Int.sign ((toCol : Int) - fromCol) = 1) ∧
      (Int.sign ((toRow : Int) - fromRow) ≠ 0 ∨ Int.sign ((toCol : Int) - fromCol) ≠ 0) ∧
      (toRow : Int) = fromRow + n * Int.sign ((toRow : Int) - fromRow) ∧
      (toCol : Int) = fromCol + n * Int.sign ((toCol : Int) - fromCol) ∧
      n = max ((toRow : Int) - fromRow).natAbs ((toCol : Int) - fromCol).natAbs := by
  unfold OnLine at hline
  simp only [Fin.ext_iff] at hline hne
  refine ⟨max ((toRow : Int) - fromRow).natAbs ((toCol : Int) - fromCol).natAbs, ?_⟩
  rcases lt_trichotomy ((toRow : Int) - fromRow) 0 with hr | hr | hr <;>
    rcases lt_trichotomy ((toCol : Int) - fromCol) 0 with hc | hc | hc
  all_goals
    first
    | rw [Int.sign_eq_neg_one_of_neg hr]
    | rw [Int.sign_eq_one_of_pos hr]
    | rw [hr, Int.sign_zero]
  all_goals
    first
    | rw [Int.sign_eq_neg_one_of_neg hc]
    | rw [Int.sign_eq_one_of_pos hc]
    | rw [hc, Int.sign_zero]
  all_goals
    first
    | (exfalso; omega)
    | exact ⟨by omega, by decide, by decide, by decide, by omega, by omega, rfl⟩

/-- C17: for two distinct squares of a common rank, file or diagonal, `isPathClear` returns,
every read is at a square of the board strictly between the two, the result says whether all
squares strictly between are empty, and it is true for adjacent squares. -/
theorem isPathClear_correct (board : Board) (fromRow fromCol toRow toCol : Fin 8)
    (hline : OnLine fromRow fromCol toRow toCol)
    (hne : ¬ (fromRow = toRow ∧ fromCol = toCol)) :
    isPathClear board fromRow fromCol toRow toCol =
      some (decide (PathEmpty board fromRow fromCol toRow toCol)) ∧
    (∀ x ∈ isPathClearReads board fromRow fromCol toRow toCol,
      ∃ p q : Fin 8, ((p : Int), (q : Int)) = x ∧
        StrictlyBetween fromRow fromCol toRow toCol p q) ∧
    ((((toRow : Int) - fromRow).natAbs ≤ 1 ∧ ((toCol : Int) - fromCol).natAbs ≤ 1) →
      isPathClear board fromRow fromCol toRow toCol = some true) := by
  obtain ⟨n, hn, hsr, hsc, hstep, htr, htc, hmax⟩ := line_steps fromRow fromCol toRow toCol hline hne
  have hwalk := fun p q => strictlyBetween_iff_walk fromRow fromCol toRow toCol p q _ _ n
    hsr hsc hstep hn htr htc
  refine ⟨isPathClear_eq board _ _ _ _ hline, ?_, ?_⟩
  · intro x hx
    unfold isPathClearReads at hx
    simp only at hx
    have hn7 : n ≤ 7 := by omega
    have hn1 : ((n - 1 : Nat) : Int) = (n : Int) - 1 := by omega
    have hrange : ∀ i : Nat, i < n - 1 → ∃ p q : Fin 8,
        (p : Int) = fromRow + Int.sign ((toRow : Int) - fromRow) +
          i * Int.sign ((toRow : Int) - fromRow) ∧
        (q : Int) = fromCol + Int.sign ((toCol : Int) - fromCol) +
          i * Int.sign ((toCol : Int) - fromCol) := by
      intro i hi
      generalize Int.sign ((toRow : Int) - fromRow) = sr at hsr htr
      generalize Int.sign ((toCol : Int) - fromCol) = sc at hsc htc
      have hr : 0 ≤ (fromRow : Int) + sr + i * sr ∧ (fromRow : Int) + sr + i * sr < 8 := by
        rcases hsr with rfl | rfl | rfl <;> omega
      have hc : 0 ≤ (fromCol : Int) + sc + i * sc ∧ (fromCol : Int) + sc + i * sc < 8 := by
        rcases hsc with rfl | rfl | rfl <;> omega
      refine ⟨⟨((fromRow : Int) + sr + i * sr).toNat, by omega⟩,
        ⟨((fromCol : Int) + sc + i * sc).toNat, by omega⟩, ?_, ?_⟩
      · simp only [Int.toNat_of_nonneg hr.1]
      · simp only [Int.toNat_of_nonneg hc.1]
    obtain ⟨i, hi, hxi⟩ := pathReads_mem board _ _ toRow toCol (n - 1) 8 _ _
      (by rw [hn1]; linear_combination htr) (by rw [hn1]; linear_combination htc) hrange x hx
    obtain ⟨p, q, hp, hq⟩ := hrange i hi
    refine ⟨p, q, by rw [hxi, hp, hq], (hwalk p q).mpr ⟨i, hi, hp, hq⟩⟩
  · intro hadj
    rw [isPathClear_eq board _ _ _ _ hline]
    have hn1 : n = 1 := by omega
    have hpe : PathEmpty board fromRow fromCol toRow toCol := by
      intro p q hb
      obtain ⟨i, hi, -⟩ := (hwalk p q).mp hb
      omega
    simp [hpe]

/-- C17 at the rook's path e2-e5 on the pin board. -/
theorem isPathClear_correct_witness :
    OnLine 6 4 3 4 ∧ ¬ ((6 : Fin 8) = 3 ∧ (4 : Fin 8) = 4) ∧
    isPathClear pinBoard 6 4 3 4 = some (decide (PathEmpty pinBoard 6 4 3 4)) ∧
    (∀ x ∈ isPathClearReads pinBoard 6 4 3 4,
      ∃ p q : Fin 8, ((p : Int), (q : Int)) = x ∧ StrictlyBetween 6 4 3 4 p q) ∧
    (((((3 : Fin 8) : Int) - (6 : Fin 8)).natAbs ≤ 1 ∧
        (((4 : Fin 8) : Int) - (4 : Fin 8)).natAbs ≤ 1) →
      isPathClear pinBoard 6 4 3 4 = some true) :=
  ⟨by decide, by decide, isPathClear_correct pinBoard 6 4 3 4 (by decide) (by decide)⟩

/-! ## Whose move it is -/

/-- C19: in a reachable state the selection, if any, holds a piece of the side to move and the
side not to move is not in check; a click that commits a move moves a piece of the side to
move and leaves that side out of check. -/
theorem only_side_to_move_moves (g : Game) (h : Reachable g) :
    (g.selected = none ∨
      ∃ s, g.selected = some s ∧ (g.board s.row s.col).side = some g.whiteToMove) ∧
    isInCheck g.board (!g.whiteToMove) = some false ∧
    ∀ (row col : Fin 8) (g1 : Game) (message : Option Message),
      handleClick g row col = some (g1, message) → g1.whiteToMove ≠ g.whiteToMove →
      ∃ sel, g.selected = some sel ∧
        (g.board sel.row sel.col).side = some g.whiteToMove ∧
        g1.board = g.board.move sel.row sel.col row col ∧
        g1.whiteToMove = (!g.whiteToMove) ∧
        isInCheck g1.board g.whiteToMove = some false := by
  have hinv := gameInv_of_reachable g h
  refine ⟨?_, ?_, ?_⟩
  · cases hs : g.selected with
    | none => exact Or.inl rfl
    | some s => exact Or.inr ⟨s, rfl, hinv.selection s hs⟩
  · rw [isInCheck_eq]
    simp [hinv.safe]
  · intro row col g1 message hstep hturn
    have hinv1 := gameInv_step g g1 message row col hinv hstep
    obtain ⟨sel, hsel, hl, hb⟩ := turn_change_is_commit g g1 message row col hstep hturn
    have hw : g1.whiteToMove = (!g.whiteToMove) := by
      revert hturn
      cases g1.whiteToMove <;> cases g.whiteToMove <;> simp
    refine ⟨sel, hsel, hinv.selection sel hsel, hb, hw, ?_⟩
    have hsafe := hinv1.safe
    rw [hw] at hsafe
    simp only [Bool.not_not] at hsafe
    rw [isInCheck_eq]
    simp [hsafe]

/-- C19 at the state after 1. f3. -/
theorem only_side_to_move_moves_witness :
    Reachable afterF3 ∧
    (afterF3.selected = none ∨
      ∃ s, afterF3.selected = some s ∧
        (afterF3.board s.row s.col).side = some afterF3.whiteToMove) ∧
    isInCheck afterF3.board (!afterF3.whiteToMove) = some false ∧
    ∀ (row col : Fin 8) (g1 : Game) (message : Option Message),
      handleClick afterF3 row col = some (g1, message) →
      g1.whiteToMove ≠ afterF3.whiteToMove →
      ∃ sel, afterF3.selected = some sel ∧
        (afterF3.board sel.row sel.col).side = some afterF3.whiteToMove ∧
        g1.board = afterF3.board.move sel.row sel.col row col ∧
        g1.whiteToMove = (!afterF3.whiteToMove) ∧
        isInCheck g1.board afterF3.whiteToMove = some false :=
  ⟨reachable_afterF3, only_side_to_move_moves afterF3 reachable_afterF3⟩

/-! ## Colour symmetry -/

theorem swap_side (p : Piece) : p.swap.side = p.side.map (fun w => !w) := by
  cases p <;> rfl

theorem swap_role (p : Piece) : p.swap.role = p.role := by
  cases p <;> rfl

theorem swap_eq_empty (p : Piece) : p.swap = Piece.empty ↔ p = Piece.empty := by
  cases p <;> decide

theorem swap_swap (p : Piece) : p.swap.swap = p := by
  cases p <;> rfl

theorem swap_eq_kingOf (p : Piece) (white : Bool) :
    p.swap = kingOf (!white) ↔ p = kingOf white := by
  cases white <;> cases p <;> decide

theorem isWhite_swap (p : Piece) (h : p ≠ Piece.empty) : isWhite p.swap = !isWhite p := by
  cases p <;> first | exact absurd rfl h | decide

theorem flipRow_coe (r : Fin 8) : ((flipRow r : Fin 8) : Int) = 7 - (r : Int) := by
  simp only [flipRow]
  omega

theorem flipRow_flipRow (r : Fin 8) : flipRow (flipRow r) = r := by
  ext
  simp only [flipRow]
  omega

theorem flipRow_eq_iff (r s : Fin 8) : flipRow r = s ↔ r = flipRow s := by
  constructor
  · intro h; rw [← h, flipRow_flipRow]
  · intro h; rw [h, flipRow_flipRow]

theorem mirror_apply (board : Board) (r c : Fin 8) :
    mirror board r c = (board (flipRow r) c).swap := rfl

theorem mirror_flip (board : Board) (r c : Fin 8) :
    mirror board (flipRow r) c = (board r c).swap := by
  rw [mirror_apply, flipRow_flipRow]

theorem strictlyBetween_flip (fromRow fromCol toRow toCol p q : Fin 8) :
    StrictlyBetween (flipRow fromRow) fromCol (flipRow toRow) toCol (flipRow p) q ↔
      StrictlyBetween fromRow fromCol toRow toCol p q := by
  unfold StrictlyBetween
  have hle : ∀ a b : Fin 8, flipRow a ≤ flipRow b ↔ b ≤ a := by
    intro a b
    simp only [Fin.le_def, flipRow]
    omega
  have heq : ∀ a b : Fin 8, flipRow a = flipRow b ↔ a = b := by
    intro a b
    simp only [Fin.ext_iff, flipRow]
    omega
  simp only [flipRow_coe, hle, heq]
  constructor
  · rintro ⟨h1, h2, h3, h4, h5⟩
    exact ⟨by linear_combination -h1, by tauto, h3, h4, h5⟩
  · rintro ⟨h1, h2, h3, h4, h5⟩
    exact ⟨by linear_combination -h1, by tauto, h3, h4, h5⟩

theorem pathEmpty_mirror (board : Board) (fromRow fromCol toRow toCol : Fin 8) :
    PathEmpty (mirror board) (flipRow fromRow) fromCol (flipRow toRow) toCol ↔
      PathEmpty board fromRow fromCol toRow toCol := by
  unfold PathEmpty
  constructor
  · intro h p q hb
    have := h (flipRow p) q ((strictlyBetween_flip _ _ _ _ p q).mpr hb)
    rw [mirror_flip] at this
    exact (swap_eq_empty _).mp this
  · intro h p q hb
    rw [mirror_apply, swap_eq_empty]
    apply h
    rw [← strictlyBetween_flip, flipRow_flipRow]
    exact hb
theorem rolePattern_mirror (board : Board) (fromRow fromCol toRow toCol : Fin 8)
    (role : Role) (white : Bool) :
    RolePattern (mirror board) (flipRow fromRow) fromCol (flipRow toRow) toCol role (!white) ↔
      RolePattern board fromRow fromCol toRow toCol role white := by
  have hrow : (flipRow fromRow = flipRow toRow) ↔ fromRow = toRow := by
    simp only [Fin.ext_iff, flipRow]
    omega
  have habs : (((flipRow toRow : Fin 8) : Int) - (flipRow fromRow : Fin 8)).natAbs =
      ((toRow : Int) - fromRow).natAbs := by
    rw [flipRow_coe, flipRow_coe]
    omega
  have h61 : flipRow fromRow = 1 ↔ fromRow = 6 := by
    simp only [Fin.ext_iff, flipRow]
    omega
  have h16 : flipRow fromRow = 6 ↔ fromRow = 1 := by
    simp only [Fin.ext_iff, flipRow]
    omega
  have h2 : mirror board 2 fromCol = (board 5 fromCol).swap := rfl
  have h5 : mirror board 5 fromCol = (board 2 fromCol).swap := rfl
  have hdr1 : ((flipRow toRow : Fin 8) : Int) - (flipRow fromRow : Fin 8) = 1 ↔
      (toRow : Int) - fromRow = -1 := by
    rw [flipRow_coe, flipRow_coe]; omega
  have hdr2 : ((flipRow toRow : Fin 8) : Int) - (flipRow fromRow : Fin 8) = 2 ↔
      (toRow : Int) - fromRow = -2 := by
    rw [flipRow_coe, flipRow_coe]; omega
  have hdr3 : ((flipRow toRow : Fin 8) : Int) - (flipRow fromRow : Fin 8) = -1 ↔
      (toRow : Int) - fromRow = 1 := by
    rw [flipRow_coe, flipRow_coe]; omega
  have hdr4 : ((flipRow toRow : Fin 8) : Int) - (flipRow fromRow : Fin 8) = -2 ↔
      (toRow : Int) - fromRow = 2 := by
    rw [flipRow_coe, flipRow_coe]; omega
  cases role <;> cases white <;>
    simp only [RolePattern, Bool.not_true, Bool.not_false, mirror_flip, swap_eq_empty, ne_eq,
      pathEmpty_mirror, hrow, habs, h61, h16, h2, h5, hdr1, hdr2, hdr3, hdr4]

theorem referenceRule_mirror (board : Board) (fromRow fromCol toRow toCol : Fin 8) :
    ReferenceRule (mirror board) (flipRow fromRow) fromCol (flipRow toRow) toCol ↔
      ReferenceRule board fromRow fromCol toRow toCol := by
  unfold ReferenceRule
  simp only [mirror_flip, swap_role, swap_side, swap_eq_empty]
  constructor
  · rintro ⟨role, white, h1, h2, h3, h4⟩
    refine ⟨role, !white, h1, ?_, ?_, ?_⟩
    · revert h2
      cases (board fromRow fromCol).side <;> cases white <;> simp
    · revert h3
      cases (board toRow toCol).side <;> cases white <;> simp
    · rw [← rolePattern_mirror]
      simpa using h4
  · rintro ⟨role, white, h1, h2, h3, h4⟩
    refine ⟨role, !white, h1, ?_, ?_, ?_⟩
    · rw [h2]; rfl
    · rcases h3 with h3 | h3
      · exact Or.inl h3
      · right; rw [h3]; rfl
    · exact (rolePattern_mirror board fromRow fromCol toRow toCol role white).mpr h4

theorem atMostOneKing_mirror (board : Board) (h : AtMostOneKing board) :
    AtMostOneKing (mirror board) := by
  intro white s t hs ht
  rw [mirror_apply] at hs ht
  have hs1 : board (flipRow s.row) s.col = kingOf (!white) := by
    rw [← swap_eq_kingOf]; simpa using hs
  have ht1 : board (flipRow t.row) t.col = kingOf (!white) := by
    rw [← swap_eq_kingOf]; simpa using ht
  have := h (!white) ⟨flipRow s.row, s.col⟩ ⟨flipRow t.row, t.col⟩ hs1 ht1
  simp only [Square.mk.injEq] at this
  obtain ⟨s1, s2⟩ := s
  obtain ⟨t1, t2⟩ := t
  simp only at this
  have h1 : s1 = t1 := by
    have := congrArg flipRow this.1
    simpa [flipRow_flipRow] using this
  rw [h1, this.2]

theorem findKing_of_unique (board : Board) (h : AtMostOneKing board) (white : Bool)
    (k : Square) (hk : board k.row k.col = kingOf white) : findKing board white = some k :=
  findKing_eq_some board white k hk (fun t ht => h white t k ht hk)

theorem attacked_mirror_of (board : Board) (h : AtMostOneKing board) (white : Bool)
    (ha : Attacked board white) : Attacked (mirror board) (!white) := by
  obtain ⟨k, hk, s, hs, hr⟩ := ha
  have hkk := (firstKing_of_findKing board white k hk).1
  refine ⟨⟨flipRow k.row, k.col⟩, ?_, ⟨flipRow s.row, s.col⟩, ?_, ?_⟩
  · apply findKing_of_unique (mirror board) (atMostOneKing_mirror board h)
    show mirror board (flipRow k.row) k.col = kingOf (!white)
    rw [mirror_flip, swap_eq_kingOf]
    exact hkk
  · show (mirror board (flipRow s.row) s.col).side = some (!!white)
    rw [mirror_flip, swap_side, hs]
    rfl
  · exact (referenceRule_mirror board s.row s.col k.row k.col).mpr hr

theorem mirror_mirror (board : Board) : mirror (mirror board) = board := by
  funext r c
  simp only [mirror_apply, flipRow_flipRow, swap_swap]

theorem attacked_mirror (board : Board) (h : AtMostOneKing board) (white : Bool) :
    Attacked (mirror board) (!white) ↔ Attacked board white := by
  constructor
  · intro ha
    have := attacked_mirror_of (mirror board) (atMostOneKing_mirror board h) (!white) ha
    rw [mirror_mirror] at this
    simpa using this
  · exact attacked_mirror_of board h white
theorem mirror_set (board : Board) (row col : Fin 8) (p : Piece) :
    mirror (board.set row col p) = (mirror board).set (flipRow row) col p.swap := by
  funext r c
  simp only [mirror_apply, Board.set, flipRow_eq_iff]
  split_ifs <;> rfl

theorem mirror_move (board : Board) (fromRow fromCol toRow toCol : Fin 8) :
    mirror (board.move fromRow fromCol toRow toCol) =
      (mirror board).move (flipRow fromRow) fromCol (flipRow toRow) toCol := by
  unfold Board.move
  rw [mirror_set, mirror_set, mirror_flip]
  rfl

theorem atMostOneKing_move (board : Board) (h : AtMostOneKing board)
    (fromRow fromCol toRow toCol : Fin 8) :
    AtMostOneKing (board.move fromRow fromCol toRow toCol) := by
  have hmove : ∀ r c, (board.move fromRow fromCol toRow toCol) r c =
      if r = fromRow ∧ c = fromCol then Piece.empty
      else if r = toRow ∧ c = toCol then board fromRow fromCol else board r c := by
    intro r c
    simp only [Board.move, Board.set]
  have hke : ∀ white, kingOf white ≠ Piece.empty := by
    intro white; cases white <;> decide
  intro white s t hs ht
  rw [hmove] at hs ht
  obtain ⟨s1, s2⟩ := s
  obtain ⟨t1, t2⟩ := t
  simp only at hs ht
  split_ifs at hs with a1 a2 <;> split_ifs at ht with b1 b2
  · exact absurd hs.symm (hke white)
  · exact absurd hs.symm (hke white)
  · exact absurd hs.symm (hke white)
  · exact absurd ht.symm (hke white)
  · rw [a2.1, a2.2, b2.1, b2.2]
  · have := h white ⟨fromRow, fromCol⟩ ⟨t1, t2⟩ hs ht
    simp only [Square.mk.injEq] at this
    exact absurd ⟨this.1.symm, this.2.symm⟩ b1
  · exact absurd ht.symm (hke white)
  · have := h white ⟨s1, s2⟩ ⟨fromRow, fromCol⟩ hs ht
    simp only [Square.mk.injEq] at this
    exact absurd this a1
  · exact h white ⟨s1, s2⟩ ⟨t1, t2⟩ hs ht

theorem legal_mirror (board : Board) (h : AtMostOneKing board)
    (fromRow fromCol toRow toCol : Fin 8) (skipCheck : Bool) :
    Legal (mirror board) (flipRow fromRow) fromCol (flipRow toRow) toCol skipCheck ↔
      Legal board fromRow fromCol toRow toCol skipCheck := by
  unfold Legal
  rw [referenceRule_mirror, ← mirror_move, mirror_flip]
  by_cases hr : ReferenceRule board fromRow fromCol toRow toCol
  · have hne : board fromRow fromCol ≠ Piece.empty := by
      obtain ⟨role, white, -, hw, -⟩ := hr
      intro he
      rw [he] at hw
      cases hw
    rw [isWhite_swap _ hne,
      attacked_mirror _ (atMostOneKing_move board h fromRow fromCol toRow toCol)]
  · simp [hr]

/-- The reference rule, and so `isValidMove` with safety checking skipped, is symmetric on
every board. -/
theorem isValidMove_skip_mirror (board : Board) (fromRow fromCol toRow toCol : Fin 8) :
    (isValidMove board fromRow fromCol toRow toCol true).map Prod.fst =
      (isValidMove (mirror board) (flipRow fromRow) fromCol (flipRow toRow) toCol true).map
        Prod.fst := by
  rw [isValidMove_eq, isValidMove_eq]
  simp only [Option.map_some', Option.some.injEq]
  apply decide_eq_decide.mpr
  unfold Legal
  rw [referenceRule_mirror]
  simp

/-- With two kings of a side the symmetry fails: `findKing` takes the first king in row-major
order, which the reversal of the rows changes.  On `twoKingsBoard` white is not in check and
the king move a8-b8 is approved, while on the mirrored board black is in check and the
mirrored move is not approved. -/
theorem mirror_needs_one_king :
    isInCheck twoKingsBoard true = some false ∧
    isInCheck (mirror twoKingsBoard) false = some true ∧
    (isValidMove twoKingsBoard 0 0 0 1 false).map Prod.fst = some true ∧
    (isValidMove (mirror twoKingsBoard) (flipRow 0) 0 (flipRow 0) 1 false).map Prod.fst =
      some false := by
  refine ⟨?_, ?_, ?_, ?_⟩ <;> decide!

/-- C20: on a board with at most one king a side, `isValidMove` gives the same answer on the
mirrored board for the mirrored squares, and `isInCheck` the same answer on the mirrored
board for the other side. -/
theorem rules_colour_symmetric (board : Board) (h : AtMostOneKing board)
    (fromRow fromCol toRow toCol : Fin 8) (skipCheck : Bool) (white : Bool) :
    (isValidMove board fromRow fromCol toRow toCol skipCheck).map Prod.fst =
      (isValidMove (mirror board) (flipRow fromRow) fromCol (flipRow toRow) toCol
        skipCheck).map Prod.fst ∧
    isInCheck board white = isInCheck (mirror board) (!white) := by
  constructor
  · rw [isValidMove_eq, isValidMove_eq]
    simp only [Option.map_some', Option.some.injEq]
    exact decide_eq_decide.mpr (legal_mirror board h fromRow fromCol toRow toCol skipCheck).symm
  · rw [isInCheck_eq, isInCheck_eq]
    congr 1
    exact decide_eq_decide.mpr (attacked_mirror board h white).symm

/-- C20 for the pinned rook of the pin board and the white side. -/
theorem rules_colour_symmetric_witness :
    AtMostOneKing pinBoard ∧
    (isValidMove pinBoard 6 4 6 3 false).map Prod.fst =
      (isValidMove (mirror pinBoard) (flipRow 6) 4 (flipRow 6) 3 false).map Prod.fst ∧
    isInCheck pinBoard true = isInCheck (mirror pinBoard) (!true) :=
  ⟨by decide!, rules_colour_symmetric pinBoard (by decide!) 6 4 6 3 false true⟩

end Chess
